import Mathlib

/-!
Verification development for the 163-solver core (`src/solver.ts`).

The embedding is a shallow translation of `solver.ts` into Lean:

* JS numbers that the solver treats as exact integers (the input numbers and
  the finite targets exercised here) are modelled as `Int`; `target` may also
  be the non-finite value rejected by validation, modelled by `JSNumber`.
* Fractions carry `Int` numerator/denominator exactly as in the source.
* Thrown exceptions are modelled by `Option`/`Except` (`none`/`.error`).
* `ZERO_THRESHOLD = 1e-10`: every numerator/denominator in this development is
  an integer, and for an integer-valued double `x`, `|x| < 1e-10 ↔ x = 0`;
  the near-zero tests are therefore translated as `= 0` tests.
-/

namespace Solver

/-- `type Fraction = { numerator: number; denominator: number }` -/
structure Fraction where
  numerator : Int
  denominator : Int
deriving DecidableEq, Repr

/--
`function gcd(a, b)` from the source: Euclid's loop
`x←|a|; y←|b|; while y≠0 {(x,y)←(y,x%y)}; return x`.
The loop state `y` strictly decreases, so `|b| + 1` iterations always
suffice (`gcdLoop_eq` below identifies the loop with `Nat.gcd`).
-/
def gcdLoop : Nat → Nat → Nat → Nat
  | 0, x, _ => x
  | fuel + 1, x, y => if y = 0 then x else gcdLoop fuel y (x % y)

/-- `gcd(a, b)` of the source. -/
def gcd (a b : Int) : Nat :=
  gcdLoop (b.natAbs + 1) a.natAbs b.natAbs

/--
The normalization body of `makeFraction` (lines 25–38 of the source): zero
numerator collapses to `0/1`; otherwise the sign is moved to the numerator and
both components are divided by the gcd of their absolute values.  The divisions
are exact because `divisor` divides both components.
-/
def reduceFraction (numerator denominator : Int) : Fraction :=
  if numerator = 0 then ⟨0, 1⟩
  else
    let sign := Int.sign denominator
    let normalizedNumerator := sign * numerator
    let normalizedDenominator : Int := denominator.natAbs
    let divisor : Int := gcd normalizedNumerator normalizedDenominator
    ⟨normalizedNumerator / divisor, normalizedDenominator / divisor⟩

/--
`makeFraction(numerator, denominator = 1)`; `none` models the thrown
`"Denominator cannot be zero"` error.
-/
def makeFraction (numerator : Int) (denominator : Int := 1) : Option Fraction :=
  if denominator = 0 then none else some (reduceFraction numerator denominator)

/--
`addFractions`.  The source forwards to `makeFraction`, whose only failure is a
zero denominator; the product of the denominators of two fractions satisfying
the constructor invariant (`FractionValid`, positive denominators — theorem C9)
is never zero, so the total `reduceFraction` path is the exact denotation.
-/
def addFractions (a b : Fraction) : Fraction :=
  reduceFraction (a.numerator * b.denominator + b.numerator * a.denominator)
    (a.denominator * b.denominator)

/-- `subtractFractions` (same remark as `addFractions`). -/
def subtractFractions (a b : Fraction) : Fraction :=
  reduceFraction (a.numerator * b.denominator - b.numerator * a.denominator)
    (a.denominator * b.denominator)

/-- `multiplyFractions` (same remark as `addFractions`). -/
def multiplyFractions (a b : Fraction) : Fraction :=
  reduceFraction (a.numerator * b.numerator) (a.denominator * b.denominator)

/--
`divideFractions`: `null` (here `none`) when the divisor's numerator is
(near-)zero or the resulting denominator is (near-)zero; otherwise reduces.
The final `makeFraction` call cannot fail since `denominator = 0` was just
excluded.
-/
def divideFractions (a b : Fraction) : Option Fraction :=
  if b.numerator = 0 then none
  else
    let numerator := a.numerator * b.denominator
    let denominator := a.denominator * b.numerator
    if denominator = 0 then none
    else some (reduceFraction numerator denominator)

/-- `fractionsEqual`: structural equality of the two components. -/
def fractionsEqual (a b : Fraction) : Bool :=
  a.numerator == b.numerator && a.denominator == b.denominator

/--
`fractionToNumber`: the JS division `numerator / denominator`.  On the exact
values produced here the float quotient is the rational quotient, modelled as
`Rat.divInt` (`Rat.divInt n d = (n : ℚ) / d`, lemma `Rat.divInt_eq_div`).
-/
def fractionToNumber (f : Fraction) : ℚ :=
  Rat.divInt f.numerator f.denominator

/--
The expression node variants: `NumericExpression`, `AddGroup`, `MulGroup`.
The two group classes cache their exact value in the readonly field
`fraction`, stored here as the first constructor argument; the join
functions below store exactly the value the class constructors compute.
-/
inductive ExpressionNode where
  | num (value : Int)
  | addGroup (fraction : Fraction) (positives : List ExpressionNode)
      (negatives : List ExpressionNode)
  | mulGroup (fraction : Fraction) (positives : List ExpressionNode)
      (negatives : List ExpressionNode)
deriving Repr

/--
`formatNumber`: both branches of the source call `value.toString()`; for the
integer values modelled here this is decimal notation.
-/
def formatNumber (value : Int) : String :=
  toString value

/--
The readonly `fraction` field.  `NumericExpression`'s constructor sets it to
`makeFraction(value)`, whose denominator argument is 1 ≠ 0, hence
`reduceFraction value 1`.
-/
def ExpressionNode.fraction : ExpressionNode → Fraction
  | .num value => reduceFraction value 1
  | .addGroup f _ _ => f
  | .mulGroup f _ _ => f

/-- `expr instanceof NumericExpression` -/
def ExpressionNode.isNum : ExpressionNode → Bool
  | .num _ => true
  | _ => false

/-- `expr instanceof AddGroup` -/
def ExpressionNode.isAddGroup : ExpressionNode → Bool
  | .addGroup _ _ _ => true
  | _ => false

/-- `expr instanceof MulGroup` -/
def ExpressionNode.isMulGroup : ExpressionNode → Bool
  | .mulGroup _ _ _ => true
  | _ => false

/-- `calculateAddGroupFraction` (starts from `makeFraction(0) = 0/1`). -/
def calculateAddGroupFraction (positives negatives : List ExpressionNode) : Fraction :=
  let result := positives.foldl (fun acc e => addFractions acc e.fraction) ⟨0, 1⟩
  negatives.foldl (fun acc e => subtractFractions acc e.fraction) result

/--
`calculateMulGroupFraction` (starts from `makeFraction(1) = 1/1`); a failed
division makes the whole computation `none`.
-/
def calculateMulGroupFraction (positives negatives : List ExpressionNode) :
    Option Fraction :=
  let result := positives.foldl (fun acc e => multiplyFractions acc e.fraction) ⟨1, 1⟩
  negatives.foldlM (fun acc e => divideFractions acc e.fraction) result

/-- `compareFractions`: sign of the cross-multiplied difference. -/
def compareFractions (a b : Fraction) : Int :=
  let diff := a.numerator * b.denominator - b.numerator * a.denominator
  if diff < 0 then -1
  else if diff > 0 then 1
  else 0

/--
Lexicographic comparison of char sequences; models
`String.prototype.localeCompare` on the solver's expression strings (ASCII
digits and operator characters, compared code point by code point).
-/
def lexCompare : List Char → List Char → Int
  | [], [] => 0
  | [], _ :: _ => -1
  | _ :: _, [] => 1
  | a :: as, b :: bs =>
    if a < b then -1 else if b < a then 1 else lexCompare as bs

/-- `a.localeCompare(b)` as used in `compareExpressions`. -/
def localeCompare (a b : String) : Int :=
  lexCompare a.data b.data

/--
Stable sorting by a JS comparator.  `[...].sort(cmp)` is required by the
ECMAScript specification to be stable, and every stable sort agrees for a
consistent comparator; insertion sort is the simplest stable realization.
-/
def orderedInsert {α : Type} (le : α → α → Bool) (a : α) : List α → List α
  | [] => [a]
  | b :: l => if le a b then a :: b :: l else b :: orderedInsert le a l

/-- Stable insertion sort (see `orderedInsert`). -/
def insertionSort {α : Type} (le : α → α → Bool) : List α → List α
  | [] => []
  | a :: l => orderedInsert le a (insertionSort le l)

/--
`result.startsWith(c) ? result.slice(1) : result` for a one-character prefix
`c`: the expression strings are ASCII, so `slice(1)` drops exactly one
character.  (Stated charwise because the byte-indexed `String.startsWith` and
`String.drop` of the core library do not matter here.)
-/
def stripLeading (c : Char) (s : String) : String :=
  match s.data with
  | [] => s
  | d :: rest => if d = c then String.mk rest else s

/--
`compareExpressions` restricted to pairs `(node, node.repr())`: the comparator
reads only the cached `fraction` field and the rendered text, so `repr` can
pre-compute the text of each member before sorting (`reprPairs` below).
-/
def comparePairs (x y : ExpressionNode × String) : Int :=
  let valueComparison := compareFractions x.1.fraction y.1.fraction
  if valueComparison ≠ 0 then valueComparison
  else localeCompare x.2 y.2

/-- Boolean form of `comparePairs x y ≤ 0`, the sort order of `repr`. -/
def pairLE (x y : ExpressionNode × String) : Bool :=
  comparePairs x y ≤ 0

mutual

/--
`repr()` of the three node classes.

* `NumericExpression.repr` returns the stored display string.
* `AddGroup.repr` sorts positives and negatives with `compareExpressions`,
  renders `+x` for positive members and `-x` for negative members (an
  `AddGroup` negative member is parenthesized), concatenates, and strips a
  leading `+`.
* `MulGroup.repr` renders `*x` / `/x`, parenthesizing every member that is not
  a `NumericExpression`, concatenates, and strips a leading `*`.
-/
def reprNode : ExpressionNode → String
  | .num value => formatNumber value
  | .addGroup _ positives negatives =>
    let sortedPositives := insertionSort pairLE (reprPairs positives)
    let sortedNegatives := insertionSort pairLE (reprPairs negatives)
    let parts := sortedPositives.map (fun p => "+" ++ p.2)
      ++ sortedNegatives.map (fun p =>
            if p.1.isAddGroup then "-(" ++ p.2 ++ ")" else "-" ++ p.2)
    let result := String.join parts
    stripLeading '+' result
  | .mulGroup _ positives negatives =>
    let sortedPositives := insertionSort pairLE (reprPairs positives)
    let sortedNegatives := insertionSort pairLE (reprPairs negatives)
    let parts := sortedPositives.map (fun p =>
        "*" ++ (if p.1.isNum then p.2 else "(" ++ p.2 ++ ")"))
      ++ sortedNegatives.map (fun p =>
        "/" ++ (if p.1.isNum then p.2 else "(" ++ p.2 ++ ")"))
    let combined := String.join parts
    stripLeading '*' combined

/-- Pairs each list member with its rendered text. -/
def reprPairs : List ExpressionNode → List (ExpressionNode × String)
  | [] => []
  | e :: es => (e, reprNode e) :: reprPairs es

end

/-- `compareExpressions`: cached exact value first, rendered text as tiebreak. -/
def compareExpressions (a b : ExpressionNode) : Int :=
  let valueComparison := compareFractions a.fraction b.fraction
  if valueComparison ≠ 0 then valueComparison
  else localeCompare (reprNode a) (reprNode b)

/-- Boolean form of `compareExpressions a b ≤ 0`. -/
def exprLE (a b : ExpressionNode) : Bool :=
  compareExpressions a b ≤ 0

/-- `sortExpressions`: stable sort of a copy by `compareExpressions`. -/
def sortExpressions (expressions : List ExpressionNode) : List ExpressionNode :=
  insertionSort exprLE expressions

/--
`joinAddGroup(first, second, negateSecond)`: flatten an `AddGroup` operand
into the merged member lists (swapping the second operand's lists when
negated), wrap a non-group operand as a single member.  The resulting
`AddGroup`'s constructor computes the cached fraction with
`calculateAddGroupFraction`.
-/
def joinAddGroup (first second : ExpressionNode) (negateSecond : Bool) :
    ExpressionNode :=
  let firstMembers : List ExpressionNode × List ExpressionNode :=
    match first with
    | .addGroup _ ps ns => (ps, ns)
    | _ => ([first], [])
  let secondMembers : List ExpressionNode × List ExpressionNode :=
    match second with
    | .addGroup _ ps ns => if negateSecond then (ns, ps) else (ps, ns)
    | _ => if negateSecond then ([], [second]) else ([second], [])
  let positives := firstMembers.1 ++ secondMembers.1
  let negatives := firstMembers.2 ++ secondMembers.2
  .addGroup (calculateAddGroupFraction positives negatives) positives negatives

/--
`joinMulGroup(first, second, invertSecond)`: same flattening for `MulGroup`;
returns `none` (candidate dropped) when `calculateMulGroupFraction` fails.
On success the `MulGroup` constructor recomputes the same fraction from the
same lists and stores it.
-/
def joinMulGroup (first second : ExpressionNode) (invertSecond : Bool) :
    Option ExpressionNode :=
  let firstMembers : List ExpressionNode × List ExpressionNode :=
    match first with
    | .mulGroup _ ps ns => (ps, ns)
    | _ => ([first], [])
  let secondMembers : List ExpressionNode × List ExpressionNode :=
    match second with
    | .mulGroup _ ps ns => if invertSecond then (ns, ps) else (ps, ns)
    | _ => if invertSecond then ([], [second]) else ([second], [])
  let positives := firstMembers.1 ++ secondMembers.1
  let negatives := firstMembers.2 ++ secondMembers.2
  match calculateMulGroupFraction positives negatives with
  | none => none
  | some value => some (.mulGroup value positives negatives)

/-- `makeInitialExpressions`: one `NumericExpression` per input number. -/
def makeInitialExpressions (numbers : List Int) : List ExpressionNode :=
  numbers.map (fun num => .num num)

/--
`combineExpressions(first, second)`: the fixed candidate order
A+B, A×B, A−B, B−A, A÷B, B÷A, the three `joinMulGroup` results included only
when present.
-/
def combineExpressions (first second : ExpressionNode) : List ExpressionNode :=
  [joinAddGroup first second false]
    ++ (joinMulGroup first second false).toList
    ++ [joinAddGroup first second true, joinAddGroup second first true]
    ++ (joinMulGroup first second true).toList
    ++ (joinMulGroup second first true).toList

/-- `type Solution = { expression: string; value: number }` -/
structure Solution where
  expression : String
  value : ℚ
deriving DecidableEq, Repr

/--
A JS `number` as far as the validation of `findSolutions` observes its
target: a finite (integer) value, or a non-finite value (`NaN`, `±Infinity`)
rejected by `Number.isFinite`.
-/
inductive JSNumber where
  | finite (value : Int)
  | nonFinite
deriving DecidableEq, Repr

/--
`SolverOptions`.  `maxSolutions = none` covers both an absent field and the
default `MAX_SOLUTIONS_DEFAULT = Infinity`: `Infinity ≤ 0` is false and
`count ≥ Infinity` is false, exactly the behavior of the `none` branches of
`capNonpositive` and `capReached`.
-/
structure SolverOptions where
  target : JSNumber
  maxSolutions : Option Int := none
deriving DecidableEq, Repr

/--
The mutable state `searchSolutions` threads: the `solutions` accumulator and
the `seenExpressions` set (a `Set<string>`, observed only through `has`/`add`,
modelled as a list with membership).
-/
structure SearchState where
  solutions : List Solution
  seenExpressions : List String
deriving DecidableEq, Repr

/-- `solutions.length >= maxSolutions` (false for the `Infinity` default). -/
def capReached (maxSolutions : Option Int) (solutionCount : Nat) : Bool :=
  match maxSolutions with
  | none => false
  | some m => m ≤ (solutionCount : Int)

/-- `maxSolutions <= 0` (false for the `Infinity` default). -/
def capNonpositive (maxSolutions : Option Int) : Bool :=
  match maxSolutions with
  | none => false
  | some m => m ≤ 0

/-- The index pairs `(i, j)`, `i < j < n`, in the source's loop order. -/
def pairIndices (n : Nat) : List (Nat × Nat) :=
  (List.range n).flatMap (fun i => (List.range' (i + 1) (n - (i + 1))).map (fun j => (i, j)))

/--
`searchSolutions`.  The recursion depth is bounded by the pool size (each
recursive call removes two pool entries and inserts one), made explicit by the
`fuel` argument: `searchSolutions_fuel` proves the result is the same for
every `fuel ≥ terms.length`, and `findSolutions` passes the pool size.

The early `return` of the source once the cap is reached is modelled by the
guards alone: a reached cap makes every remaining iteration the identity
(`searchSolutions_capped`), so continuing the folds returns the same state the
source's unwinding returns.

When `terms.length = 1` but the value does not match the target, the source
falls through to the pair loops, which have nothing to iterate; both paths
return the state unchanged.
-/
def searchSolutions : Nat → List ExpressionNode → Fraction → Option Int →
    SearchState → SearchState
  | 0, _, _, _, state => state
  | fuel + 1, terms, target, maxSolutions, state =>
    if capReached maxSolutions state.solutions.length then state
    else
      match terms with
      | [t] =>
        if fractionsEqual t.fraction target then
          let representation := reprNode t
          if state.seenExpressions.contains representation then state
          else
            { solutions := state.solutions
                ++ [{ expression := representation
                      value := fractionToNumber t.fraction }]
              seenExpressions := representation :: state.seenExpressions }
        else state
      | _ =>
        (pairIndices terms.length).foldl
          (fun st1 ij =>
            let first := terms.getD ij.1 (.num 0)
            let second := terms.getD ij.2 (.num 0)
            let remaining := (terms.eraseIdx ij.2).eraseIdx ij.1
            (combineExpressions first second).foldl
              (fun st2 next =>
                if capReached maxSolutions st2.solutions.length then st2
                else searchSolutions fuel (remaining ++ [next]) target maxSolutions st2)
              st1)
          state

/--
`findSolutions(numbers, options)`: validation (`Array.isArray` always holds
for the typed model), then the recursive search from one leaf per number.
`.error` models the thrown `Error`s; an error therefore carries no partial
results.  `makeFraction(targetValue)` has denominator 1, hence equals
`some (reduceFraction targetValue 1)`.
-/
def findSolutions (numbers : List Int) (options : SolverOptions) :
    Except String (List Solution) :=
  let maxSolutions := options.maxSolutions
  if numbers.length = 0 then
    .error "The numbers array must contain at least one entry."
  else
    match options.target with
    | .nonFinite => .error "Target must be a finite number."
    | .finite targetValue =>
      if capNonpositive maxSolutions then
        .error "maxSolutions must be greater than zero."
      else
        let targetFraction := reduceFraction targetValue 1
        let initialTerms := makeInitialExpressions numbers
        let finalState :=
          searchSolutions initialTerms.length initialTerms targetFraction
            maxSolutions ⟨[], []⟩
        .ok finalState.solutions

instance {ε α : Type} [DecidableEq ε] [DecidableEq α] : DecidableEq (Except ε α) :=
  fun a b =>
    match a, b with
    | .ok x, .ok y => decidable_of_iff (x = y) (by simp)
    | .error x, .error y => decidable_of_iff (x = y) (by simp)
    | .ok _, .error _ => isFalse (by simp)
    | .error _, .ok _ => isFalse (by simp)

/-- `findFirstSolution`: cap 1, first solution or `null` (`none`). -/
def findFirstSolution (numbers : List Int) (options : SolverOptions) :
    Except String (Option Solution) :=
  match findSolutions numbers { target := options.target, maxSolutions := some 1 } with
  | .error e => .error e
  | .ok solutions => .ok solutions.head?

/-! ### Rational arithmetic: the constructor invariant (C9) -/

theorem gcdLoop_eq : ∀ (fuel x y : Nat), y < fuel → gcdLoop fuel x y = Nat.gcd y x := by
  intro fuel
  induction fuel with
  | zero => intro x y h; omega
  | succ f ih =>
    intro x y h
    by_cases hy : y = 0
    · subst hy; simp [gcdLoop, Nat.gcd]
    · have hylt : 0 < y := Nat.pos_of_ne_zero hy
      have hmod : x % y < f := lt_of_lt_of_le (Nat.mod_lt x hylt) (by omega)
      rw [gcdLoop, if_neg hy, ih y (x % y) hmod, Nat.gcd_rec y x]

/-- The source's Euclid loop is `Nat.gcd` on the absolute values. -/
theorem gcd_eq_intGcd (a b : Int) : gcd a b = Int.gcd a b := by
  rw [gcd, gcdLoop_eq _ _ _ (Nat.lt_succ_self _), Nat.gcd_comm, Int.gcd]

/--
The `Fraction` invariant of the spec: positive denominator and coprime
components (`Int.gcd` takes absolute values, so this is
`gcd(|numerator|, denominator) = 1`).
-/
def Fraction.Valid (f : Fraction) : Prop :=
  0 < f.denominator ∧ Int.gcd f.numerator f.denominator = 1

instance (f : Fraction) : Decidable f.Valid := by
  unfold Fraction.Valid; infer_instance

/-- Unfolding of `reduceFraction` in the nonzero-numerator case. -/
theorem reduceFraction_def (n d : Int) (hn : n ≠ 0) :
    reduceFraction n d =
      ⟨(Int.sign d * n) / (Int.gcd (Int.sign d * n) (d.natAbs : Int) : Int),
        (d.natAbs : Int) / (Int.gcd (Int.sign d * n) (d.natAbs : Int) : Int)⟩ := by
  rw [reduceFraction, if_neg hn]
  simp only [gcd_eq_intGcd]

theorem reduceFraction_valid (n d : Int) (hd : d ≠ 0) : (reduceFraction n d).Valid := by
  by_cases hn : n = 0
  · rw [reduceFraction, if_pos hn]
    exact ⟨one_pos, by simp [Int.gcd]⟩
  · rw [reduceFraction_def n d hn]
    have hnn0 : (Int.sign d * n) ≠ 0 :=
      mul_ne_zero (by simpa using hd) hn
    have hnd0 : (0 : Int) < (d.natAbs : Int) := by exact_mod_cast Int.natAbs_pos.mpr hd
    have hg : 0 < Int.gcd (Int.sign d * n) (d.natAbs : Int) :=
      Int.gcd_pos_iff.mpr (Or.inl hnn0)
    have hgz : ((Int.gcd (Int.sign d * n) (d.natAbs : Int)) : Int) ≠ 0 := by
      exact_mod_cast hg.ne'
    have hdvd : ((Int.gcd (Int.sign d * n) (d.natAbs : Int)) : Int) ∣ (d.natAbs : Int) :=
      Int.gcd_dvd_right
    exact ⟨Int.ediv_pos_of_pos_of_dvd hnd0 (Int.natCast_nonneg _) hdvd,
      Int.gcd_div_gcd_div_gcd hg⟩

theorem makeFraction_eq_none_iff (n d : Int) : makeFraction n d = none ↔ d = 0 := by
  rw [makeFraction]
  by_cases hd : d = 0 <;> simp [hd]

theorem makeFraction_valid (n d : Int) (f : Fraction)
    (h : makeFraction n d = some f) : f.Valid := by
  rw [makeFraction] at h
  by_cases hd : d = 0
  · simp [hd] at h
  · simp only [if_neg hd, Option.some.injEq] at h
    exact h ▸ reduceFraction_valid n d hd

theorem valid_num_zero {f : Fraction} (hf : f.Valid) (h : f.numerator = 0) :
    f = ⟨0, 1⟩ := by
  obtain ⟨hpos, hgcd⟩ := hf
  rw [h] at hgcd
  simp only [Int.gcd, Int.natAbs_zero, Nat.gcd_zero_left] at hgcd
  have : f.denominator = 1 := by omega
  cases f; simp_all

theorem addFractions_valid {a b : Fraction} (ha : a.Valid) (hb : b.Valid) :
    (addFractions a b).Valid :=
  reduceFraction_valid _ _ (mul_ne_zero ha.1.ne' hb.1.ne')

theorem subtractFractions_valid {a b : Fraction} (ha : a.Valid) (hb : b.Valid) :
    (subtractFractions a b).Valid :=
  reduceFraction_valid _ _ (mul_ne_zero ha.1.ne' hb.1.ne')

theorem multiplyFractions_valid {a b : Fraction} (ha : a.Valid) (hb : b.Valid) :
    (multiplyFractions a b).Valid :=
  reduceFraction_valid _ _ (mul_ne_zero ha.1.ne' hb.1.ne')

theorem divideFractions_valid {a b : Fraction} {c : Fraction}
    (h : divideFractions a b = some c) : c.Valid := by
  rw [divideFractions] at h
  by_cases hb : b.numerator = 0
  · simp [hb] at h
  · simp only [if_neg hb] at h
    by_cases hz : a.denominator * b.numerator = 0
    · simp [hz] at h
    · simp only [if_neg hz, Option.some.injEq] at h
      exact h ▸ reduceFraction_valid _ _ hz

/-- `divideFractions` fails exactly on a zero divisor when `a` is valid. -/
theorem divideFractions_eq_none_iff {a b : Fraction} (ha : a.Valid) :
    divideFractions a b = none ↔ b.numerator = 0 := by
  rw [divideFractions]
  by_cases hb : b.numerator = 0
  · simp [hb]
  · simp [hb, mul_ne_zero ha.1.ne' hb]

theorem fractionsEqual_iff (a b : Fraction) : fractionsEqual a b = true ↔ a = b := by
  cases a; cases b
  simp [fractionsEqual, Fraction.mk.injEq, and_comm]

/-! ### Well-formed and reachable expression nodes -/

/--
Well-formedness of the nodes the program actually builds: groups have a
nonempty positive list and at least two members in total, members are
themselves well-formed and never of the same group kind (the joins flatten),
and the cached fraction is exactly the one the class constructor computes.
-/
inductive Good : ExpressionNode → Prop where
  | num (v : Int) : Good (.num v)
  | add (f : Fraction) (ps ns : List ExpressionNode)
      (hne : ps ≠ []) (hlen : 2 ≤ ps.length + ns.length)
      (hmem : ∀ m ∈ ps ++ ns, Good m)
      (hflat : ∀ m ∈ ps ++ ns, m.isAddGroup = false)
      (hf : f = calculateAddGroupFraction ps ns) :
      Good (.addGroup f ps ns)
  | mul (f : Fraction) (ps ns : List ExpressionNode)
      (hne : ps ≠ []) (hlen : 2 ≤ ps.length + ns.length)
      (hmem : ∀ m ∈ ps ++ ns, Good m)
      (hflat : ∀ m ∈ ps ++ ns, m.isMulGroup = false)
      (hf : calculateMulGroupFraction ps ns = some f) :
      Good (.mulGroup f ps ns)

/--
The nodes reachable from leaves through the two join operations — every node
the search ever puts in a pool is of this shape.
-/
inductive Reachable : ExpressionNode → Prop where
  | leaf (v : Int) : Reachable (.num v)
  | add {A B : ExpressionNode} (negateSecond : Bool)
      (hA : Reachable A) (hB : Reachable B) :
      Reachable (joinAddGroup A B negateSecond)
  | mul {A B C : ExpressionNode} (invertSecond : Bool)
      (hA : Reachable A) (hB : Reachable B)
      (h : joinMulGroup A B invertSecond = some C) : Reachable C

theorem foldl_fraction_valid (op : Fraction → Fraction → Fraction)
    (hop : ∀ {x y : Fraction}, x.Valid → y.Valid → (op x y).Valid) :
    ∀ (l : List ExpressionNode) (init : Fraction), init.Valid →
      (∀ m ∈ l, m.fraction.Valid) →
      (l.foldl (fun acc e => op acc e.fraction) init).Valid := by
  intro l
  induction l with
  | nil => intro init h _; exact h
  | cons e rest ih =>
    intro init hinit hmem
    exact ih _ (hop hinit (hmem e (by simp)))
      (fun m hm => hmem m (by simp [hm]))

theorem divFold_valid :
    ∀ (l : List ExpressionNode) (init r : Fraction), init.Valid →
      l.foldlM (fun acc e => divideFractions acc e.fraction) init = some r →
      r.Valid := by
  intro l
  induction l with
  | nil =>
    intro init r h hr
    simp only [List.foldlM_nil, Option.pure_def, Option.some.injEq] at hr
    exact hr ▸ h
  | cons e rest ih =>
    intro init r hinit hr
    simp only [List.foldlM_cons] at hr
    cases hstep : divideFractions init e.fraction with
    | none => rw [hstep] at hr; simp at hr
    | some acc =>
      rw [hstep] at hr
      exact ih acc r (divideFractions_valid hstep) hr

theorem calculateAddGroupFraction_valid (ps ns : List ExpressionNode)
    (hmem : ∀ m ∈ ps ++ ns, m.fraction.Valid) :
    (calculateAddGroupFraction ps ns).Valid := by
  rw [calculateAddGroupFraction]
  exact foldl_fraction_valid _ (fun hx hy => subtractFractions_valid hx hy) ns _
    (foldl_fraction_valid _ (fun hx hy => addFractions_valid hx hy) ps _
      ⟨one_pos, by simp [Int.gcd]⟩ (fun m hm => hmem m (by simp [hm])))
    (fun m hm => hmem m (by simp [hm]))

theorem calculateMulGroupFraction_valid {ps ns : List ExpressionNode} {f : Fraction}
    (h : calculateMulGroupFraction ps ns = some f)
    (hmem : ∀ m ∈ ps, m.fraction.Valid) : f.Valid := by
  rw [calculateMulGroupFraction] at h
  exact divFold_valid ns _ f
    (foldl_fraction_valid _ (fun hx hy => multiplyFractions_valid hx hy) ps _
      ⟨one_pos, by simp [Int.gcd]⟩ hmem) h

/-- Every well-formed node carries a fraction satisfying the invariant. -/
theorem good_valid {e : ExpressionNode} (h : Good e) : e.fraction.Valid := by
  induction h with
  | num v => exact reduceFraction_valid v 1 one_ne_zero
  | add f ps ns hne hlen hmem hflat hf ih =>
    exact hf ▸ calculateAddGroupFraction_valid ps ns ih
  | mul f ps ns hne hlen hmem hflat hf ih =>
    exact calculateMulGroupFraction_valid hf (fun m hm => ih m (by simp [hm]))

/--
The operand split both joins perform: an operand of the group kind being
built contributes its member lists (swapped when negated/inverted), any other
operand becomes a single member.  `addParts e b` is the contribution of an
additive operand with negate flag `b` (the first operand always uses
`b = false`).
-/
def addParts (e : ExpressionNode) (negated : Bool) :
    List ExpressionNode × List ExpressionNode :=
  match e with
  | .addGroup _ ps ns => if negated then (ns, ps) else (ps, ns)
  | _ => if negated then ([], [e]) else ([e], [])

/-- Multiplicative analogue of `addParts`. -/
def mulParts (e : ExpressionNode) (inverted : Bool) :
    List ExpressionNode × List ExpressionNode :=
  match e with
  | .mulGroup _ ps ns => if inverted then (ns, ps) else (ps, ns)
  | _ => if inverted then ([], [e]) else ([e], [])

theorem joinAddGroup_eq (A B : ExpressionNode) (neg : Bool) :
    joinAddGroup A B neg =
      .addGroup
        (calculateAddGroupFraction ((addParts A false).1 ++ (addParts B neg).1)
          ((addParts A false).2 ++ (addParts B neg).2))
        ((addParts A false).1 ++ (addParts B neg).1)
        ((addParts A false).2 ++ (addParts B neg).2) := by
  cases A <;> cases B <;> cases neg <;> rfl

theorem joinMulGroup_eq (A B : ExpressionNode) (inv : Bool) :
    joinMulGroup A B inv =
      match calculateMulGroupFraction ((mulParts A false).1 ++ (mulParts B inv).1)
          ((mulParts A false).2 ++ (mulParts B inv).2) with
      | none => none
      | some value =>
        some (.mulGroup value ((mulParts A false).1 ++ (mulParts B inv).1)
          ((mulParts A false).2 ++ (mulParts B inv).2)) := by
  cases A <;> cases B <;> cases inv <;> rfl

theorem addParts_fst_nonempty {A : ExpressionNode} (h : Good A) :
    (addParts A false).1 ≠ [] := by
  cases h with
  | num v => simp [addParts]
  | add f ps ns hne _ _ _ _ => simpa [addParts] using hne
  | mul f ps ns _ _ _ _ _ => simp [addParts]

theorem mulParts_fst_nonempty {A : ExpressionNode} (h : Good A) :
    (mulParts A false).1 ≠ [] := by
  cases h with
  | num v => simp [mulParts]
  | add f ps ns _ _ _ _ _ => simp [mulParts]
  | mul f ps ns hne _ _ _ _ => simpa [mulParts] using hne

theorem addParts_length_pos {A : ExpressionNode} (h : Good A) (b : Bool) :
    1 ≤ (addParts A b).1.length + (addParts A b).2.length := by
  cases h with
  | num v => cases b <;> simp [addParts]
  | add f ps ns hne hlen _ _ _ => cases b <;> simp [addParts] <;> omega
  | mul f ps ns _ _ _ _ _ => cases b <;> simp [addParts]

theorem mulParts_length_pos {A : ExpressionNode} (h : Good A) (b : Bool) :
    1 ≤ (mulParts A b).1.length + (mulParts A b).2.length := by
  cases h with
  | num v => cases b <;> simp [mulParts]
  | add f ps ns _ _ _ _ _ => cases b <;> simp [mulParts]
  | mul f ps ns hne hlen _ _ _ => cases b <;> simp [mulParts] <;> omega

theorem addParts_mem_good {A : ExpressionNode} (h : Good A) (b : Bool) :
    ∀ m, m ∈ (addParts A b).1 ++ (addParts A b).2 → Good m := by
  intro m hm
  cases h with
  | num v =>
    cases b <;> simp [addParts] at hm <;> (subst hm; exact Good.num v)
  | add f ps ns hne hlen hmem hflat hf =>
    cases b <;> simp only [addParts, List.mem_append] at hm
    · exact hmem m (List.mem_append.mpr hm)
    · exact hmem m (List.mem_append.mpr hm.symm)
  | mul f ps ns hne hlen hmem hflat hf =>
    cases b <;> simp [mulParts, addParts] at hm <;>
      (subst hm; exact Good.mul f ps ns hne hlen hmem hflat hf)

theorem mulParts_mem_good {A : ExpressionNode} (h : Good A) (b : Bool) :
    ∀ m, m ∈ (mulParts A b).1 ++ (mulParts A b).2 → Good m := by
  intro m hm
  cases h with
  | num v =>
    cases b <;> simp [mulParts] at hm <;> (subst hm; exact Good.num v)
  | add f ps ns hne hlen hmem hflat hf =>
    cases b <;> simp [mulParts] at hm <;>
      (subst hm; exact Good.add f ps ns hne hlen hmem hflat hf)
  | mul f ps ns hne hlen hmem hflat hf =>
    cases b <;> simp only [mulParts, List.mem_append] at hm
    · exact hmem m (List.mem_append.mpr hm)
    · exact hmem m (List.mem_append.mpr hm.symm)

theorem addParts_mem_not_addGroup {A : ExpressionNode} (h : Good A) (b : Bool) :
    ∀ m, m ∈ (addParts A b).1 ++ (addParts A b).2 → m.isAddGroup = false := by
  intro m hm
  cases h with
  | num v =>
    cases b <;> simp [addParts] at hm <;> simp [hm, ExpressionNode.isAddGroup]
  | add f ps ns hne hlen hmem hflat hf =>
    cases b <;> simp only [addParts, List.mem_append] at hm
    · exact hflat m (List.mem_append.mpr hm)
    · exact hflat m (List.mem_append.mpr hm.symm)
  | mul f ps ns hne hlen hmem hflat hf =>
    cases b <;> simp [addParts] at hm <;> simp [hm, ExpressionNode.isAddGroup]

theorem mulParts_mem_not_mulGroup {A : ExpressionNode} (h : Good A) (b : Bool) :
    ∀ m, m ∈ (mulParts A b).1 ++ (mulParts A b).2 → m.isMulGroup = false := by
  intro m hm
  cases h with
  | num v =>
    cases b <;> simp [mulParts] at hm <;> simp [hm, ExpressionNode.isMulGroup]
  | add f ps ns hne hlen hmem hflat hf =>
    cases b <;> simp [mulParts] at hm <;> simp [hm, ExpressionNode.isMulGroup]
  | mul f ps ns hne hlen hmem hflat hf =>
    cases b <;> simp only [mulParts, List.mem_append] at hm
    · exact hflat m (List.mem_append.mpr hm)
    · exact hflat m (List.mem_append.mpr hm.symm)

theorem good_joinAddGroup {A B : ExpressionNode} (hA : Good A) (hB : Good B)
    (neg : Bool) : Good (joinAddGroup A B neg) := by
  rw [joinAddGroup_eq]
  refine Good.add _ _ _ ?_ ?_ ?_ ?_ rfl
  · intro h
    exact addParts_fst_nonempty hA (List.append_eq_nil.mp h).1
  · have h1 := addParts_length_pos hA false
    have h2 := addParts_length_pos hB neg
    simp only [List.length_append]
    omega
  · intro m hm
    rcases List.mem_append.mp hm with h | h
    · rcases List.mem_append.mp h with h' | h'
      · exact addParts_mem_good hA false m (List.mem_append.mpr (Or.inl h'))
      · exact addParts_mem_good hB neg m (List.mem_append.mpr (Or.inl h'))
    · rcases List.mem_append.mp h with h' | h'
      · exact addParts_mem_good hA false m (List.mem_append.mpr (Or.inr h'))
      · exact addParts_mem_good hB neg m (List.mem_append.mpr (Or.inr h'))
  · intro m hm
    rcases List.mem_append.mp hm with h | h
    · rcases List.mem_append.mp h with h' | h'
      · exact addParts_mem_not_addGroup hA false m (List.mem_append.mpr (Or.inl h'))
      · exact addParts_mem_not_addGroup hB neg m (List.mem_append.mpr (Or.inl h'))
    · rcases List.mem_append.mp h with h' | h'
      · exact addParts_mem_not_addGroup hA false m (List.mem_append.mpr (Or.inr h'))
      · exact addParts_mem_not_addGroup hB neg m (List.mem_append.mpr (Or.inr h'))

theorem good_joinMulGroup {A B C : ExpressionNode} (hA : Good A) (hB : Good B)
    (inv : Bool) (h : joinMulGroup A B inv = some C) : Good C := by
  rw [joinMulGroup_eq] at h
  cases hcalc : calculateMulGroupFraction ((mulParts A false).1 ++ (mulParts B inv).1)
      ((mulParts A false).2 ++ (mulParts B inv).2) with
  | none => rw [hcalc] at h; simp at h
  | some f =>
    rw [hcalc] at h
    simp only [Option.some.injEq] at h
    subst h
    refine Good.mul _ _ _ ?_ ?_ ?_ ?_ hcalc
    · intro h
      exact mulParts_fst_nonempty hA (List.append_eq_nil.mp h).1
    · have h1 := mulParts_length_pos hA false
      have h2 := mulParts_length_pos hB inv
      simp only [List.length_append]
      omega
    · intro m hm
      rcases List.mem_append.mp hm with h | h
      · rcases List.mem_append.mp h with h' | h'
        · exact mulParts_mem_good hA false m (List.mem_append.mpr (Or.inl h'))
        · exact mulParts_mem_good hB inv m (List.mem_append.mpr (Or.inl h'))
      · rcases List.mem_append.mp h with h' | h'
        · exact mulParts_mem_good hA false m (List.mem_append.mpr (Or.inr h'))
        · exact mulParts_mem_good hB inv m (List.mem_append.mpr (Or.inr h'))
    · intro m hm
      rcases List.mem_append.mp hm with h | h
      · rcases List.mem_append.mp h with h' | h'
        · exact mulParts_mem_not_mulGroup hA false m (List.mem_append.mpr (Or.inl h'))
        · exact mulParts_mem_not_mulGroup hB inv m (List.mem_append.mpr (Or.inl h'))
      · rcases List.mem_append.mp h with h' | h'
        · exact mulParts_mem_not_mulGroup hA false m (List.mem_append.mpr (Or.inr h'))
        · exact mulParts_mem_not_mulGroup hB inv m (List.mem_append.mpr (Or.inr h'))

/-- Everything the search can build is well-formed. -/
theorem reachable_good {e : ExpressionNode} (h : Reachable e) : Good e := by
  induction h with
  | leaf v => exact Good.num v
  | add neg hA hB ihA ihB => exact good_joinAddGroup ihA ihB neg
  | mul inv hA hB hjoin ihA ihB => exact good_joinMulGroup ihA ihB inv hjoin

/--
Flatness: no `AddGroup` member directly inside an `AddGroup`, no `MulGroup`
member directly inside a `MulGroup`, recursively.
-/
inductive Flat : ExpressionNode → Prop where
  | num (v : Int) : Flat (.num v)
  | add (f : Fraction) (ps ns : List ExpressionNode)
      (hmem : ∀ m ∈ ps ++ ns, Flat m)
      (hflat : ∀ m ∈ ps ++ ns, m.isAddGroup = false) :
      Flat (.addGroup f ps ns)
  | mul (f : Fraction) (ps ns : List ExpressionNode)
      (hmem : ∀ m ∈ ps ++ ns, Flat m)
      (hflat : ∀ m ∈ ps ++ ns, m.isMulGroup = false) :
      Flat (.mulGroup f ps ns)

theorem good_flat {e : ExpressionNode} (h : Good e) : Flat e := by
  induction h with
  | num v => exact Flat.num v
  | add f ps ns hne hlen hmem hflat ih ihmem => exact Flat.add f ps ns ihmem hflat
  | mul f ps ns hne hlen hmem hflat ih ihmem => exact Flat.mul f ps ns ihmem hflat

/-! ### Zero-value analysis and the combiner (C5) -/

theorem reduceFraction_num_zero_iff (n d : Int) (hd : d ≠ 0) :
    (reduceFraction n d).numerator = 0 ↔ n = 0 := by
  by_cases hn : n = 0
  · simp [reduceFraction, hn]
  · rw [reduceFraction_def n d hn]
    simp only [iff_false_intro hn, iff_false]
    intro hzero
    have hnn0 : (Int.sign d * n) ≠ 0 := mul_ne_zero (by simpa using hd) hn
    have hg : 0 < Int.gcd (Int.sign d * n) (d.natAbs : Int) :=
      Int.gcd_pos_iff.mpr (Or.inl hnn0)
    have hgz : ((Int.gcd (Int.sign d * n) (d.natAbs : Int)) : Int) ≠ 0 := by
      exact_mod_cast hg.ne'
    have hdvd : ((Int.gcd (Int.sign d * n) (d.natAbs : Int)) : Int) ∣ Int.sign d * n :=
      Int.gcd_dvd_left
    have hcancel := Int.mul_ediv_cancel' hdvd
    rw [hzero, mul_zero] at hcancel
    exact hnn0 hcancel.symm

theorem multiplyFractions_num_zero {a b : Fraction} (ha : a.Valid) (hb : b.Valid) :
    (multiplyFractions a b).numerator = 0 ↔
      a.numerator = 0 ∨ b.numerator = 0 := by
  rw [multiplyFractions,
    reduceFraction_num_zero_iff _ _ (mul_ne_zero ha.1.ne' hb.1.ne')]
  exact mul_eq_zero

theorem divideFractions_num_zero {a b c : Fraction} (hb : b.Valid)
    (h : divideFractions a b = some c) :
    c.numerator = 0 ↔ a.numerator = 0 := by
  rw [divideFractions] at h
  by_cases hbn : b.numerator = 0
  · simp [hbn] at h
  · simp only [if_neg hbn] at h
    by_cases hz : a.denominator * b.numerator = 0
    · simp [hz] at h
    · simp only [if_neg hz, Option.some.injEq] at h
      rw [← h, reduceFraction_num_zero_iff _ _ hz, mul_eq_zero]
      simp [hb.1.ne']

theorem mulFold_num_zero :
    ∀ (l : List ExpressionNode) (init : Fraction), init.Valid →
      (∀ m ∈ l, m.fraction.Valid) →
      ((l.foldl (fun acc e => multiplyFractions acc e.fraction) init).numerator = 0 ↔
        init.numerator = 0 ∨ ∃ m ∈ l, m.fraction.numerator = 0) := by
  intro l
  induction l with
  | nil => intro init _ _; simp
  | cons e rest ih =>
    intro init hinit hmem
    have he : e.fraction.Valid := hmem e (by simp)
    have hstep : (multiplyFractions init e.fraction).Valid :=
      multiplyFractions_valid hinit he
    rw [List.foldl_cons, ih _ hstep (fun m hm => hmem m (by simp [hm])),
      multiplyFractions_num_zero hinit he]
    constructor
    · rintro ((h | h) | ⟨m, hm, h⟩)
      · exact Or.inl h
      · exact Or.inr ⟨e, by simp, h⟩
      · exact Or.inr ⟨m, by simp [hm], h⟩
    · rintro (h | ⟨m, hm, h⟩)
      · exact Or.inl (Or.inl h)
      · rcases List.mem_cons.mp hm with rfl | hm'
        · exact Or.inl (Or.inr h)
        · exact Or.inr ⟨m, hm', h⟩

theorem divFold_eq_none_iff :
    ∀ (l : List ExpressionNode) (init : Fraction), init.Valid →
      (l.foldlM (fun acc e => divideFractions acc e.fraction) init = none ↔
        ∃ m ∈ l, m.fraction.numerator = 0) := by
  intro l
  induction l with
  | nil => intro init _; simp
  | cons e rest ih =>
    intro init hinit
    rw [List.foldlM_cons]
    by_cases he : e.fraction.numerator = 0
    · have : divideFractions init e.fraction = none :=
        (divideFractions_eq_none_iff hinit).mpr he
      rw [this]
      simp only [Option.bind_eq_bind, Option.none_bind]
      exact iff_of_true trivial ⟨e, by simp, he⟩
    · cases hstep : divideFractions init e.fraction with
      | none => exact absurd ((divideFractions_eq_none_iff hinit).mp hstep) he
      | some acc =>
        simp only [Option.bind_eq_bind, Option.some_bind]
        rw [ih acc (divideFractions_valid hstep)]
        constructor
        · rintro ⟨m, hm, h⟩
          exact ⟨m, by simp [hm], h⟩
        · rintro ⟨m, hm, h⟩
          rcases List.mem_cons.mp hm with rfl | hm'
          · exact absurd h he
          · exact ⟨m, hm', h⟩

theorem divFold_num_zero :
    ∀ (l : List ExpressionNode) (init r : Fraction), init.Valid →
      (∀ m ∈ l, m.fraction.Valid) →
      l.foldlM (fun acc e => divideFractions acc e.fraction) init = some r →
      (r.numerator = 0 ↔ init.numerator = 0) := by
  intro l
  induction l with
  | nil =>
    intro init r _ _ h
    simp only [List.foldlM_nil, Option.pure_def, Option.some.injEq] at h
    rw [h]
  | cons e rest ih =>
    intro init r hinit hmem h
    rw [List.foldlM_cons] at h
    cases hstep : divideFractions init e.fraction with
    | none => rw [hstep] at h; simp at h
    | some acc =>
      rw [hstep] at h
      simp only [Option.bind_eq_bind, Option.some_bind] at h
      rw [ih acc r (divideFractions_valid hstep) (fun m hm => hmem m (by simp [hm])) h,
        divideFractions_num_zero (hmem e (by simp)) hstep]

theorem calculateMulGroupFraction_eq_none_iff {ps ns : List ExpressionNode}
    (hps : ∀ m ∈ ps, m.fraction.Valid) :
    (calculateMulGroupFraction ps ns = none ↔
      ∃ m ∈ ns, m.fraction.numerator = 0) := by
  rw [calculateMulGroupFraction]
  exact divFold_eq_none_iff ns _
    (foldl_fraction_valid _ (fun hx hy => multiplyFractions_valid hx hy) ps _
      ⟨one_pos, by simp [Int.gcd]⟩ hps)

theorem calculateMulGroupFraction_num_zero {ps ns : List ExpressionNode} {f : Fraction}
    (h : calculateMulGroupFraction ps ns = some f)
    (hps : ∀ m ∈ ps, m.fraction.Valid) (hns : ∀ m ∈ ns, m.fraction.Valid) :
    (f.numerator = 0 ↔ ∃ m ∈ ps, m.fraction.numerator = 0) := by
  rw [calculateMulGroupFraction] at h
  have hvalid := foldl_fraction_valid (fun x y => multiplyFractions x y)
    (fun hx hy => multiplyFractions_valid hx hy) ps ⟨1, 1⟩
    ⟨one_pos, by simp [Int.gcd]⟩ hps
  rw [divFold_num_zero ns _ f hvalid hns h, mulFold_num_zero ps _
    ⟨one_pos, by simp [Int.gcd]⟩ hps]
  simp

theorem good_members_valid {A : ExpressionNode} (h : Good A) (b : Bool) :
    (∀ m ∈ (mulParts A b).1, m.fraction.Valid) ∧
      (∀ m ∈ (mulParts A b).2, m.fraction.Valid) :=
  ⟨fun m hm => good_valid (mulParts_mem_good h b m (List.mem_append.mpr (Or.inl hm))),
    fun m hm => good_valid (mulParts_mem_good h b m (List.mem_append.mpr (Or.inr hm)))⟩

/-- A well-formed `MulGroup`'s value is zero iff one of its factors is zero. -/
theorem good_mulGroup_num_zero {f : Fraction} {ps ns : List ExpressionNode}
    (h : Good (.mulGroup f ps ns)) :
    (f.numerator = 0 ↔ ∃ m ∈ ps, m.fraction.numerator = 0) := by
  cases h with
  | mul f ps ns hne hlen hmem hflat hf =>
    exact calculateMulGroupFraction_num_zero hf
      (fun m hm => good_valid (hmem m (by simp [hm])))
      (fun m hm => good_valid (hmem m (by simp [hm])))

/-- A well-formed node never has a zero-valued divisor member. -/
theorem good_negatives_nonzero {A : ExpressionNode} (hA : Good A) :
    ∀ m ∈ (mulParts A false).2, m.fraction.numerator ≠ 0 := by
  intro m hm
  cases hA with
  | num v => simp [mulParts] at hm
  | add f ps ns _ _ _ _ _ => simp [mulParts] at hm
  | mul f ps ns hne hlen hmem hflat hf =>
    simp only [mulParts] at hm
    intro hzero
    have hnone : calculateMulGroupFraction ps ns = none :=
      (calculateMulGroupFraction_eq_none_iff
        (fun x hx => good_valid (hmem x (by simp [hx])))).mpr ⟨m, by simpa using hm, hzero⟩
    rw [hf] at hnone
    exact Option.some_ne_none f hnone

/-- The inverted second operand contributes a zero divisor iff its value is zero. -/
theorem mulParts_inverted_zero_iff {B : ExpressionNode} (hB : Good B) :
    (∃ m ∈ (mulParts B true).2, m.fraction.numerator = 0) ↔
      B.fraction.numerator = 0 := by
  cases hB with
  | num v => simp [mulParts, ExpressionNode.fraction]
  | add f ps ns hne hlen hmem hflat hf =>
    simp [mulParts, ExpressionNode.fraction]
  | mul f ps ns hne hlen hmem hflat hf =>
    simp only [mulParts, ExpressionNode.fraction]
    exact (good_mulGroup_num_zero (Good.mul f ps ns hne hlen hmem hflat hf)).symm

/-- `A × B` (not inverted) always succeeds on well-formed operands. -/
theorem joinMulGroup_not_inverted_isSome {A B : ExpressionNode}
    (hA : Good A) (hB : Good B) : (joinMulGroup A B false).isSome = true := by
  rw [joinMulGroup_eq]
  cases hcalc : calculateMulGroupFraction ((mulParts A false).1 ++ (mulParts B false).1)
      ((mulParts A false).2 ++ (mulParts B false).2) with
  | some f => simp
  | none =>
    obtain ⟨m, hm, hzero⟩ := (calculateMulGroupFraction_eq_none_iff
      (fun m hm => by
        rcases List.mem_append.mp hm with h | h
        · exact (good_members_valid hA false).1 m h
        · exact (good_members_valid hB false).1 m h)).mp hcalc
    rcases List.mem_append.mp hm with h | h
    · exact absurd hzero (good_negatives_nonzero hA m h)
    · exact absurd hzero (good_negatives_nonzero hB m h)

/-- `A ÷ B` is dropped exactly when the divisor `B` has value zero. -/
theorem joinMulGroup_inverted_eq_none_iff {A B : ExpressionNode}
    (hA : Good A) (hB : Good B) :
    (joinMulGroup A B true = none ↔ B.fraction.numerator = 0) := by
  rw [joinMulGroup_eq]
  have hvalidpos : ∀ m ∈ (mulParts A false).1 ++ (mulParts B true).1, m.fraction.Valid := by
    intro m hm
    rcases List.mem_append.mp hm with h | h
    · exact (good_members_valid hA false).1 m h
    · exact (good_members_valid hB true).1 m h
  cases hcalc : calculateMulGroupFraction ((mulParts A false).1 ++ (mulParts B true).1)
      ((mulParts A false).2 ++ (mulParts B true).2) with
  | none =>
    obtain ⟨m, hm, hzero⟩ :=
      (calculateMulGroupFraction_eq_none_iff hvalidpos).mp hcalc
    refine iff_of_true rfl ?_
    rcases List.mem_append.mp hm with h | h
    · exact absurd hzero (good_negatives_nonzero hA m h)
    · exact (mulParts_inverted_zero_iff hB).mp ⟨m, h, hzero⟩
  | some f =>
    refine iff_of_false (by simp) ?_
    intro hzero
    obtain ⟨m, hm, hz⟩ := (mulParts_inverted_zero_iff hB).mpr hzero
    have hnone : calculateMulGroupFraction ((mulParts A false).1 ++ (mulParts B true).1)
        ((mulParts A false).2 ++ (mulParts B true).2) = none :=
      (calculateMulGroupFraction_eq_none_iff hvalidpos).mpr
        ⟨m, List.mem_append.mpr (Or.inr hm), hz⟩
    rw [hcalc] at hnone
    exact Option.some_ne_none f hnone

/-! ### Claim theorems C9, C8, C5 -/

/--
**C9.** For integer arguments, `makeFraction(numerator, denominator)` raises an
error exactly when `denominator` is 0, and otherwise returns a `Fraction` with
positive denominator, `gcd(|numerator|, denominator) = 1`, and numerator 0
always represented as `0/1`; consequently `addFractions`,
`subtractFractions`, `multiplyFractions` and (successful) `divideFractions`
preserve this invariant.
-/
theorem C9_fraction_invariant (n d : Int) {a b : Fraction}
    (ha : a.Valid) (hb : b.Valid) :
    (makeFraction n d = none ↔ d = 0) ∧
    (∀ f : Fraction, makeFraction n d = some f →
      0 < f.denominator ∧ Int.gcd f.numerator f.denominator = 1 ∧
        (f.numerator = 0 → f = ⟨0, 1⟩)) ∧
    (addFractions a b).Valid ∧ (subtractFractions a b).Valid ∧
    (multiplyFractions a b).Valid ∧
    (∀ c : Fraction, divideFractions a b = some c → c.Valid) := by
  refine ⟨makeFraction_eq_none_iff n d, ?_, addFractions_valid ha hb,
    subtractFractions_valid ha hb, multiplyFractions_valid ha hb,
    fun c hc => divideFractions_valid hc⟩
  intro f hf
  have hv := makeFraction_valid n d f hf
  exact ⟨hv.1, hv.2, fun h0 => valid_num_zero hv h0⟩

theorem C9_fraction_invariant_witness :
    (makeFraction 4 (-6) = none ↔ (-6 : Int) = 0) ∧
    (0 < (reduceFraction 4 (-6)).denominator ∧
      Int.gcd (reduceFraction 4 (-6)).numerator (reduceFraction 4 (-6)).denominator = 1 ∧
      ((reduceFraction 4 (-6)).numerator = 0 → reduceFraction 4 (-6) = ⟨0, 1⟩)) ∧
    (divideFractions ⟨1, 2⟩ ⟨-2, 3⟩ = some ⟨-3, 4⟩) ∧
    (addFractions ⟨1, 2⟩ ⟨-2, 3⟩).Valid ∧
    (subtractFractions ⟨1, 2⟩ ⟨-2, 3⟩).Valid ∧
    (multiplyFractions ⟨1, 2⟩ ⟨-2, 3⟩).Valid ∧
    Fraction.Valid ⟨-3, 4⟩ := by
  have h := C9_fraction_invariant 4 (-6) (a := ⟨1, 2⟩) (b := ⟨-2, 3⟩)
    (by decide) (by decide)
  exact ⟨h.1, h.2.1 (reduceFraction 4 (-6)) (by decide), by decide,
    h.2.2.1, h.2.2.2.1, h.2.2.2.2.1, h.2.2.2.2.2 ⟨-3, 4⟩ (by decide)⟩

/--
**C8.** Every expression node reachable from leaves via `joinAddGroup` and
`joinMulGroup` is flat: no `AddGroup` directly contains another `AddGroup`
among its positive or negative members, and no `MulGroup` directly contains
another `MulGroup` among its factors or divisors — joining always flattens a
same-kind operand into the merged member lists.
-/
theorem C8_flattening_invariant (e : ExpressionNode) (h : Reachable e) : Flat e :=
  good_flat (reachable_good h)

theorem C8_flattening_invariant_witness :
    Flat (joinAddGroup (joinAddGroup (.num 1) (.num 2) false) (.num 3) false) :=
  C8_flattening_invariant _
    (Reachable.add false (Reachable.add false (Reachable.leaf 1) (Reachable.leaf 2))
      (Reachable.leaf 3))

/--
**C5.** For reachable operands `A`, `B`, `combineExpressions A B` is the fixed
ordered list A+B, A×B, A−B, B−A, A÷B, B÷A, where the first four are always
present (`joinMulGroup A B false` always succeeds) and each division is
dropped individually exactly when its divisor's exact value is (near-)zero,
so the result has between 4 and 6 nodes.
-/
theorem C5_combiner_order (A B : ExpressionNode) (hA : Reachable A) (hB : Reachable B) :
    combineExpressions A B =
      [joinAddGroup A B false] ++ (joinMulGroup A B false).toList
        ++ [joinAddGroup A B true, joinAddGroup B A true]
        ++ (joinMulGroup A B true).toList ++ (joinMulGroup B A true).toList ∧
    (joinMulGroup A B false).isSome = true ∧
    (joinMulGroup A B true = none ↔ B.fraction.numerator = 0) ∧
    (joinMulGroup B A true = none ↔ A.fraction.numerator = 0) ∧
    4 ≤ (combineExpressions A B).length ∧ (combineExpressions A B).length ≤ 6 := by
  have gA := reachable_good hA
  have gB := reachable_good hB
  have h1 : (joinMulGroup A B false).isSome = true :=
    joinMulGroup_not_inverted_isSome gA gB
  obtain ⟨m, hm⟩ := Option.isSome_iff_exists.mp h1
  have hlen : 4 ≤ (combineExpressions A B).length ∧
      (combineExpressions A B).length ≤ 6 := by
    cases hAB : joinMulGroup A B true <;> cases hBA : joinMulGroup B A true <;>
      simp [combineExpressions, hm, hAB, hBA, Option.toList]
  exact ⟨rfl, h1, joinMulGroup_inverted_eq_none_iff gA gB,
    joinMulGroup_inverted_eq_none_iff gB gA, hlen.1, hlen.2⟩

theorem C5_combiner_order_witness :
    combineExpressions (.num 5) (.num 0) =
      [joinAddGroup (.num 5) (.num 0) false]
        ++ (joinMulGroup (.num 5) (.num 0) false).toList
        ++ [joinAddGroup (.num 5) (.num 0) true, joinAddGroup (.num 0) (.num 5) true]
        ++ (joinMulGroup (.num 5) (.num 0) true).toList
        ++ (joinMulGroup (.num 0) (.num 5) true).toList ∧
    (joinMulGroup (.num 5) (.num 0) false).isSome = true ∧
    (joinMulGroup (.num 5) (.num 0) true = none ↔
      (ExpressionNode.num 0).fraction.numerator = 0) ∧
    (joinMulGroup (.num 0) (.num 5) true = none ↔
      (ExpressionNode.num 5).fraction.numerator = 0) ∧
    4 ≤ (combineExpressions (.num 5) (.num 0)).length ∧
    (combineExpressions (.num 5) (.num 0)).length ≤ 6 :=
  C5_combiner_order _ _ (Reachable.leaf 5) (Reachable.leaf 0)

/-! ### Decidable equality of nodes -/

mutual

def nodeDecEq : (a b : ExpressionNode) → Decidable (a = b)
  | .num v, .num w =>
    match decEq v w with
    | isTrue h => isTrue (by rw [h])
    | isFalse h => isFalse (fun hh => by cases hh; exact h rfl)
  | .num _, .addGroup _ _ _ => isFalse (fun hh => by cases hh)
  | .num _, .mulGroup _ _ _ => isFalse (fun hh => by cases hh)
  | .addGroup _ _ _, .num _ => isFalse (fun hh => by cases hh)
  | .addGroup f ps ns, .addGroup g qs ms =>
    match decEq f g, nodeListDecEq ps qs, nodeListDecEq ns ms with
    | isTrue h1, isTrue h2, isTrue h3 => isTrue (by rw [h1, h2, h3])
    | isFalse h1, _, _ => isFalse (fun hh => by cases hh; exact h1 rfl)
    | _, isFalse h2, _ => isFalse (fun hh => by cases hh; exact h2 rfl)
    | _, _, isFalse h3 => isFalse (fun hh => by cases hh; exact h3 rfl)
  | .addGroup _ _ _, .mulGroup _ _ _ => isFalse (fun hh => by cases hh)
  | .mulGroup _ _ _, .num _ => isFalse (fun hh => by cases hh)
  | .mulGroup _ _ _, .addGroup _ _ _ => isFalse (fun hh => by cases hh)
  | .mulGroup f ps ns, .mulGroup g qs ms =>
    match decEq f g, nodeListDecEq ps qs, nodeListDecEq ns ms with
    | isTrue h1, isTrue h2, isTrue h3 => isTrue (by rw [h1, h2, h3])
    | isFalse h1, _, _ => isFalse (fun hh => by cases hh; exact h1 rfl)
    | _, isFalse h2, _ => isFalse (fun hh => by cases hh; exact h2 rfl)
    | _, _, isFalse h3 => isFalse (fun hh => by cases hh; exact h3 rfl)

def nodeListDecEq : (xs ys : List ExpressionNode) → Decidable (xs = ys)
  | [], [] => isTrue rfl
  | [], _ :: _ => isFalse (fun hh => by cases hh)
  | _ :: _, [] => isFalse (fun hh => by cases hh)
  | x :: xs, y :: ys =>
    match nodeDecEq x y, nodeListDecEq xs ys with
    | isTrue h1, isTrue h2 => isTrue (by rw [h1, h2])
    | isFalse h1, _ => isFalse (fun hh => by cases hh; exact h1 rfl)
    | _, isFalse h2 => isFalse (fun hh => by cases hh; exact h2 rfl)

end

instance : DecidableEq ExpressionNode := nodeDecEq

/-! ### Properties of the stable sort -/

theorem orderedInsert_perm {α : Type} (le : α → α → Bool) (a : α) :
    ∀ l : List α, List.Perm (orderedInsert le a l) (a :: l) := by
  intro l
  induction l with
  | nil => simp [orderedInsert]
  | cons b t ih =>
    rw [orderedInsert]
    by_cases h : le a b = true
    · rw [if_pos h]
    · rw [if_neg h]
      exact (List.Perm.cons b ih).trans (List.Perm.swap a b t)

theorem insertionSort_perm {α : Type} (le : α → α → Bool) :
    ∀ l : List α, List.Perm (insertionSort le l) l := by
  intro l
  induction l with
  | nil => simp [insertionSort]
  | cons a t ih =>
    rw [insertionSort]
    exact (orderedInsert_perm le a _).trans (List.Perm.cons a ih)

theorem mem_insertionSort {α : Type} (le : α → α → Bool) {l : List α} {x : α} :
    x ∈ insertionSort le l ↔ x ∈ l :=
  (insertionSort_perm le l).mem_iff

theorem sorted_orderedInsert {α : Type} (le : α → α → Bool)
    (htot : ∀ x y, le x y = true ∨ le y x = true) (a : α) :
    ∀ l : List α,
      (∀ x ∈ a :: l, ∀ y ∈ a :: l, ∀ z ∈ a :: l,
        le x y = true → le y z = true → le x z = true) →
      l.Pairwise (fun x y => le x y = true) →
      (orderedInsert le a l).Pairwise (fun x y => le x y = true) := by
  intro l
  induction l with
  | nil => intro _ _; simp [orderedInsert]
  | cons b t ih =>
    intro htrans hsorted
    rw [orderedInsert]
    by_cases h : le a b = true
    · rw [if_pos h]
      refine List.Pairwise.cons ?_ hsorted
      intro x hx
      rcases List.mem_cons.mp hx with rfl | hx'
      · exact h
      · exact htrans a (by simp) b (by simp) x (by simp [hx'])
          h ((List.pairwise_cons.mp hsorted).1 x hx')
    · rw [if_neg h]
      have hba : le b a = true := (htot a b).resolve_left h
      refine List.Pairwise.cons ?_ ?_
      · intro x hx
        rcases List.mem_cons.mp (((orderedInsert_perm le a t).mem_iff).mp hx) with rfl | hx'
        · exact hba
        · exact (List.pairwise_cons.mp hsorted).1 x hx'
      · exact ih
          (by
            intro x hx y hy z hz
            refine htrans x ?_ y ?_ z ?_ <;>
              first
              | (rcases List.mem_cons.mp hx with rfl | hx'
                 · simp
                 · simp [hx'])
              | (rcases List.mem_cons.mp hy with rfl | hy'
                 · simp
                 · simp [hy'])
              | (rcases List.mem_cons.mp hz with rfl | hz'
                 · simp
                 · simp [hz']))
          (List.pairwise_cons.mp hsorted).2

theorem sorted_insertionSort {α : Type} (le : α → α → Bool)
    (htot : ∀ x y, le x y = true ∨ le y x = true) :
    ∀ l : List α,
      (∀ x ∈ l, ∀ y ∈ l, ∀ z ∈ l,
        le x y = true → le y z = true → le x z = true) →
      (insertionSort le l).Pairwise (fun x y => le x y = true) := by
  intro l
  induction l with
  | nil => intro _; simp [insertionSort]
  | cons a t ih =>
    intro htrans
    rw [insertionSort]
    refine sorted_orderedInsert le htot a (insertionSort le t) ?_ ?_
    · intro x hx y hy z hz hxy hyz
      have hmem : ∀ w, w ∈ a :: insertionSort le t → w ∈ a :: t := by
        intro w hw
        rcases List.mem_cons.mp hw with rfl | hw'
        · simp
        · simp [(mem_insertionSort le).mp hw']
      exact htrans x (hmem x hx) y (hmem y hy) z (hmem z hz) hxy hyz
    · exact ih (fun x hx y hy z hz => htrans x (by simp [hx]) y (by simp [hy]) z (by simp [hz]))

theorem orderedInsert_map {α β : Type} (le : α → α → Bool) (le' : β → β → Bool)
    (g : α → β) (hg : ∀ x y, le' (g x) (g y) = le x y) (a : α) :
    ∀ l : List α, orderedInsert le' (g a) (l.map g) = (orderedInsert le a l).map g := by
  intro l
  induction l with
  | nil => simp [orderedInsert]
  | cons b t ih =>
    simp only [List.map_cons, orderedInsert, hg]
    by_cases h : le a b = true
    · rw [if_pos h, if_pos h, List.map_cons, List.map_cons]
    · rw [if_neg h, if_neg h, List.map_cons, ih]

theorem insertionSort_map {α β : Type} (le : α → α → Bool) (le' : β → β → Bool)
    (g : α → β) (hg : ∀ x y, le' (g x) (g y) = le x y) :
    ∀ l : List α, insertionSort le' (l.map g) = (insertionSort le l).map g := by
  intro l
  induction l with
  | nil => simp [insertionSort]
  | cons a t ih =>
    simp only [List.map_cons, insertionSort]
    rw [ih, orderedInsert_map le le' g hg]

/--
Extracting a minimal element from a sorted list: mapping a function that is
constant on ties over the list is the same as mapping it over the element
followed by the rest.
-/
theorem map_sorted_erase_min {α β : Type} [DecidableEq α] (le : α → α → Bool)
    (f : α → β) (a : α) :
    ∀ l : List α, l.Pairwise (fun x y => le x y = true) → a ∈ l →
      (∀ x ∈ l, le a x = true) →
      (∀ x ∈ l, le a x = true → le x a = true → f x = f a) →
      l.map f = f a :: (l.erase a).map f := by
  intro l
  induction l with
  | nil => intro _ h; simp at h
  | cons b t ih =>
    intro hsorted hmem hmin hties
    by_cases hab : a = b
    · subst hab
      rw [List.erase_cons_head, List.map_cons]
    · have hat : a ∈ t := (List.mem_cons.mp hmem).resolve_left hab
      have hba : le b a = true := (List.pairwise_cons.mp hsorted).1 a hat
      have hfa : f b = f a := hties b (by simp) (hmin b (by simp)) hba
      rw [List.erase_cons_tail (by simp; exact Ne.symm hab), List.map_cons, List.map_cons,
        ih (List.pairwise_cons.mp hsorted).2 hat (fun x hx => hmin x (by simp [hx]))
          (fun x hx h1 h2 => hties x (by simp [hx]) h1 h2),
        hfa]

/--
Two sorted lists that are permutations of one another have the same image
under any function that is constant on ties of the order.  This is what makes
the canonical rendering independent of the build order of the member lists.
-/
theorem map_eq_of_perm_of_sorted {α β : Type} [DecidableEq α] (le : α → α → Bool)
    (htot : ∀ x y, le x y = true ∨ le y x = true) (f : α → β) :
    ∀ l1 l2 : List α, List.Perm l1 l2 →
      l1.Pairwise (fun x y => le x y = true) →
      l2.Pairwise (fun x y => le x y = true) →
      (∀ x ∈ l1, ∀ y ∈ l1, le x y = true → le y x = true → f x = f y) →
      l1.map f = l2.map f := by
  intro l1
  induction l1 with
  | nil =>
    intro l2 hperm _ _ _
    rw [hperm.nil_eq]
  | cons a t1 ih =>
    intro l2 hperm hs1 hs2 hties
    have hal2 : a ∈ l2 := hperm.mem_iff.mp (by simp)
    cases l2 with
    | nil => simp at hal2
    | cons b t2 =>
      have hrefl : ∀ x : α, le x x = true := fun x => (htot x x).elim id id
      have hbl1 : b ∈ a :: t1 := hperm.mem_iff.mpr (by simp)
      have hab : le a b = true := by
        rcases List.mem_cons.mp hbl1 with h | hb'
        · rw [h]; exact hrefl _
        · exact (List.pairwise_cons.mp hs1).1 b hb'
      have hba : le b a = true := by
        rcases List.mem_cons.mp hal2 with h | ha'
        · rw [h]; exact hrefl _
        · exact (List.pairwise_cons.mp hs2).1 a ha'
      have hmin : ∀ x ∈ b :: t2, le a x = true := by
        intro x hx
        rcases List.mem_cons.mp (hperm.mem_iff.mpr hx) with h | hx'
        · rw [h]; exact hrefl _
        · exact (List.pairwise_cons.mp hs1).1 x hx'
      have hext := map_sorted_erase_min le f a (b :: t2) hs2 hal2 hmin
        (fun x hx h1 h2 => hties x (hperm.mem_iff.mpr hx) a (by simp) h2 h1)
      have hperm' : List.Perm t1 ((b :: t2).erase a) :=
        (hperm.trans (List.perm_cons_erase hal2)).cons_inv
      have hs2' : ((b :: t2).erase a).Pairwise (fun x y => le x y = true) :=
        hs2.sublist (List.erase_sublist a (b :: t2))
      rw [List.map_cons, hext,
        ih ((b :: t2).erase a) hperm' (List.pairwise_cons.mp hs1).2 hs2'
          (fun x hx y hy h1 h2 => hties x (by simp [hx]) y (by simp [hy]) h1 h2)]

/-! ### Properties of the comparators -/

theorem lexCompare_neg : ∀ a b : List Char, lexCompare b a = -(lexCompare a b) := by
  intro a
  induction a with
  | nil => intro b; cases b <;> simp [lexCompare]
  | cons x as ih =>
    intro b
    cases b with
    | nil => simp [lexCompare]
    | cons y bs =>
      simp only [lexCompare]
      rcases lt_trichotomy x y with h | h | h
      · rw [if_neg (lt_asymm h), if_pos h, if_pos h]
        norm_num
      · subst h
        rw [if_neg (lt_irrefl x), if_neg (lt_irrefl x), if_neg (lt_irrefl x),
          if_neg (lt_irrefl x)]
        exact ih bs
      · rw [if_pos h, if_neg (lt_asymm h), if_pos h]

theorem lexCompare_eq_zero_iff : ∀ a b : List Char, lexCompare a b = 0 ↔ a = b := by
  intro a
  induction a with
  | nil => intro b; cases b <;> simp [lexCompare]
  | cons x as ih =>
    intro b
    cases b with
    | nil => simp [lexCompare]
    | cons y bs =>
      simp only [lexCompare]
      rcases lt_trichotomy x y with h | h | h
      · rw [if_pos h]
        simp only [neg_eq_zero, List.cons.injEq]
        constructor
        · intro hh; omega
        · rintro ⟨rfl, _⟩; exact absurd h (lt_irrefl x)
      · rw [if_neg (by rw [h]; exact lt_irrefl y), if_neg (by rw [h]; exact lt_irrefl y)]
        rw [ih bs]
        simp [h]
      · rw [if_neg (lt_asymm h), if_pos h]
        simp only [List.cons.injEq]
        constructor
        · intro hh; omega
        · rintro ⟨rfl, _⟩; exact absurd h (lt_irrefl x)

theorem lexCompare_trans : ∀ a b c : List Char,
    lexCompare a b ≤ 0 → lexCompare b c ≤ 0 → lexCompare a c ≤ 0 := by
  intro a
  induction a with
  | nil => intro b c _ _; cases c <;> simp [lexCompare]
  | cons x as ih =>
    intro b c hab hbc
    cases b with
    | nil => simp [lexCompare] at hab
    | cons y bs =>
      cases c with
      | nil => simp [lexCompare] at hbc
      | cons z cs =>
        simp only [lexCompare] at hab hbc ⊢
        rcases lt_trichotomy x y with hxy | hxy | hxy
        · rcases lt_trichotomy y z with hyz | hyz | hyz
          · rw [if_pos (lt_trans hxy hyz)]; omega
          · rw [if_pos (hyz ▸ hxy)]; omega
          · rw [if_pos hyz, if_neg (lt_asymm hyz)] at hbc; omega
        · rcases lt_trichotomy y z with hyz | hyz | hyz
          · rw [if_pos (hxy ▸ hyz)]; omega
          · have hxz : x = z := hxy.trans hyz
            rw [if_neg (by rw [hxz]; exact lt_irrefl z),
              if_neg (by rw [hxz]; exact lt_irrefl z)]
            rw [if_neg (by rw [hxy]; exact lt_irrefl y),
              if_neg (by rw [hxy]; exact lt_irrefl y)] at hab
            rw [if_neg (by rw [hyz]; exact lt_irrefl z),
              if_neg (by rw [hyz]; exact lt_irrefl z)] at hbc
            exact ih bs cs hab hbc
          · rw [if_pos hyz, if_neg (lt_asymm hyz)] at hbc; omega
        · rw [if_neg (lt_asymm hxy), if_pos hxy] at hab; omega

theorem compareFractions_neg (a b : Fraction) :
    compareFractions b a = -(compareFractions a b) := by
  simp only [compareFractions]
  have h : b.numerator * a.denominator - a.numerator * b.denominator =
      -(a.numerator * b.denominator - b.numerator * a.denominator) := by ring
  rw [h]
  split_ifs <;> omega

theorem compareFractions_cases (a b : Fraction) :
    compareFractions a b = -1 ∨ compareFractions a b = 0 ∨ compareFractions a b = 1 := by
  simp only [compareFractions]
  split_ifs <;> simp

theorem compareFractions_neg_one_iff (a b : Fraction) :
    compareFractions a b = -1 ↔
      a.numerator * b.denominator < b.numerator * a.denominator := by
  simp only [compareFractions]
  split_ifs with h1 h2
  · exact iff_of_true rfl (by omega)
  · exact iff_of_false (by norm_num) (by omega)
  · exact iff_of_false (by norm_num) (by omega)

theorem compareFractions_zero_iff (a b : Fraction) :
    compareFractions a b = 0 ↔
      a.numerator * b.denominator = b.numerator * a.denominator := by
  simp only [compareFractions]
  split_ifs with h1 h2
  · exact iff_of_false (by norm_num) (by omega)
  · exact iff_of_false (by norm_num) (by omega)
  · exact iff_of_true rfl (by omega)

theorem compareExpressions_neg (a b : ExpressionNode) :
    compareExpressions b a = -(compareExpressions a b) := by
  simp only [compareExpressions, localeCompare]
  by_cases h : compareFractions a.fraction b.fraction = 0
  · have h' : compareFractions b.fraction a.fraction = 0 := by
      rw [compareFractions_neg a.fraction b.fraction, h, neg_zero]
    rw [if_neg (by simp [h']), if_neg (by simp [h])]
    exact lexCompare_neg _ _
  · have h' : compareFractions b.fraction a.fraction ≠ 0 := by
      rw [compareFractions_neg a.fraction b.fraction]
      simpa using h
    rw [if_pos (by simpa using h'), if_pos (by simpa using h)]
    exact compareFractions_neg _ _

theorem exprLE_eq_true_iff (a b : ExpressionNode) :
    exprLE a b = true ↔ compareExpressions a b ≤ 0 := by
  simp [exprLE]

theorem exprLE_total (a b : ExpressionNode) :
    exprLE a b = true ∨ exprLE b a = true := by
  rw [exprLE_eq_true_iff, exprLE_eq_true_iff, compareExpressions_neg]
  omega

/-- A tie of the comparator means equal cross product and identical text. -/
theorem exprLE_tie {a b : ExpressionNode} (h1 : exprLE a b = true)
    (h2 : exprLE b a = true) :
    compareFractions a.fraction b.fraction = 0 ∧ reprNode a = reprNode b := by
  rw [exprLE_eq_true_iff] at h1 h2
  rw [compareExpressions_neg] at h2
  have hz : compareExpressions a b = 0 := by omega
  simp only [compareExpressions] at hz
  by_cases h : compareFractions a.fraction b.fraction = 0
  · refine ⟨h, ?_⟩
    rw [if_neg (by simp [h])] at hz
    exact String.ext ((lexCompare_eq_zero_iff _ _).mp (by simpa [localeCompare] using hz))
  · rw [if_pos (by simpa using h)] at hz
    exact absurd hz h

theorem exprLE_iff (a b : ExpressionNode) :
    exprLE a b = true ↔
      (compareFractions a.fraction b.fraction = -1 ∨
        (compareFractions a.fraction b.fraction = 0 ∧
          localeCompare (reprNode a) (reprNode b) ≤ 0)) := by
  rw [exprLE_eq_true_iff]
  simp only [compareExpressions]
  rcases compareFractions_cases a.fraction b.fraction with h | h | h <;> rw [h] <;>
    norm_num

/-- Transitivity of the sort order on nodes with positive denominators. -/
theorem exprLE_trans {a b c : ExpressionNode}
    (ha : 0 < a.fraction.denominator) (hb : 0 < b.fraction.denominator)
    (hc : 0 < c.fraction.denominator)
    (h1 : exprLE a b = true) (h2 : exprLE b c = true) : exprLE a c = true := by
  rw [exprLE_iff] at h1 h2 ⊢
  rcases h1 with h1 | ⟨h1, h1l⟩ <;> rcases h2 with h2 | ⟨h2, h2l⟩
  · rw [compareFractions_neg_one_iff] at h1 h2
    refine Or.inl ((compareFractions_neg_one_iff a.fraction c.fraction).mpr ?_)
    nlinarith [mul_lt_mul_of_pos_right h1 hc, mul_lt_mul_of_pos_right h2 ha, hb,
      mul_pos hb hc]
  · rw [compareFractions_neg_one_iff] at h1
    rw [compareFractions_zero_iff] at h2
    refine Or.inl ((compareFractions_neg_one_iff a.fraction c.fraction).mpr ?_)
    nlinarith [mul_lt_mul_of_pos_right h1 hc, hb, mul_pos hb hc]
  · rw [compareFractions_zero_iff] at h1
    rw [compareFractions_neg_one_iff] at h2
    refine Or.inl ((compareFractions_neg_one_iff a.fraction c.fraction).mpr ?_)
    nlinarith [mul_lt_mul_of_pos_right h2 ha, hb, mul_pos hb ha]
  · rw [compareFractions_zero_iff] at h1 h2
    refine Or.inr ⟨(compareFractions_zero_iff a.fraction c.fraction).mpr ?_, ?_⟩
    · have hbd : b.fraction.denominator ≠ 0 := hb.ne'
      have hmul : a.fraction.numerator * c.fraction.denominator * b.fraction.denominator =
          c.fraction.numerator * a.fraction.denominator * b.fraction.denominator := by
        nlinarith
      exact mul_right_cancel₀ hbd hmul
    · exact lexCompare_trans _ _ _ h1l h2l

/-! ### Unfolding the renderer -/

theorem reprPairs_eq : ∀ l : List ExpressionNode,
    reprPairs l = l.map (fun e => (e, reprNode e)) := by
  intro l
  induction l with
  | nil => simp [reprPairs]
  | cons e es ih => rw [reprPairs, ih, List.map_cons]

theorem pairLE_map (x y : ExpressionNode) :
    pairLE (x, reprNode x) (y, reprNode y) = exprLE x y := rfl

theorem sortedPairs_eq (l : List ExpressionNode) :
    insertionSort pairLE (reprPairs l) =
      (sortExpressions l).map (fun e => (e, reprNode e)) := by
  rw [reprPairs_eq, sortExpressions,
    insertionSort_map exprLE pairLE _ (fun x y => pairLE_map x y)]

/-- The text contributed by a positive member of an `AddGroup`. -/
def addPosPart (e : ExpressionNode) : String := "+" ++ reprNode e

/-- The text contributed by a negative member of an `AddGroup`. -/
def addNegPart (e : ExpressionNode) : String :=
  if e.isAddGroup then "-(" ++ reprNode e ++ ")" else "-" ++ reprNode e

/-- The text contributed by a factor of a `MulGroup`. -/
def mulPosPart (e : ExpressionNode) : String :=
  "*" ++ (if e.isNum then reprNode e else "(" ++ reprNode e ++ ")")

/-- The text contributed by a divisor of a `MulGroup`. -/
def mulNegPart (e : ExpressionNode) : String :=
  "/" ++ (if e.isNum then reprNode e else "(" ++ reprNode e ++ ")")

theorem reprNode_addGroup (f : Fraction) (ps ns : List ExpressionNode) :
    reprNode (.addGroup f ps ns) =
      stripLeading '+' (String.join
        ((sortExpressions ps).map addPosPart ++ (sortExpressions ns).map addNegPart)) := by
  simp only [reprNode]
  rw [sortedPairs_eq, sortedPairs_eq, List.map_map, List.map_map]
  rfl

theorem reprNode_mulGroup (f : Fraction) (ps ns : List ExpressionNode) :
    reprNode (.mulGroup f ps ns) =
      stripLeading '*' (String.join
        ((sortExpressions ps).map mulPosPart ++ (sortExpressions ns).map mulNegPart)) := by
  simp only [reprNode]
  rw [sortedPairs_eq, sortedPairs_eq, List.map_map, List.map_map]
  rfl

/-! ### Shape of the rendered strings -/

theorem foldl_append_data :
    ∀ (l : List String) (init : String),
      (l.foldl (fun r s => r ++ s) init).data =
        init.data ++ (l.map String.data).flatten := by
  intro l
  induction l with
  | nil => intro init; simp
  | cons s rest ih =>
    intro init
    rw [List.foldl_cons, ih, List.map_cons, List.flatten_cons, String.data_append,
      List.append_assoc]

theorem stringJoin_data (l : List String) :
    (String.join l).data = (l.map String.data).flatten := by
  rw [String.join, foldl_append_data]
  rfl

theorem stripLeading_data_cons {c : Char} {s : String} {rest : List Char}
    (h : s.data = c :: rest) : (stripLeading c s).data = rest := by
  rw [stripLeading, h]
  simp

/-- The characters the renderer may emit before or between member texts. -/
def opChars : List Char := ['+', '-', '*', '/', '(']

theorem digitChar_isDigit (m : Nat) (h : m < 10) :
    (Nat.digitChar m).isDigit = true := by
  interval_cases m <;> decide

theorem toDigitsCore_digits :
    ∀ (fuel n : Nat) (acc : List Char), (∀ c ∈ acc, c.isDigit = true) →
      ∀ c ∈ Nat.toDigitsCore 10 fuel n acc, c.isDigit = true := by
  intro fuel
  induction fuel with
  | zero => intro n acc hacc; exact hacc
  | succ f ih =>
    intro n acc hacc c hc
    rw [Nat.toDigitsCore] at hc
    have hd : (Nat.digitChar (n % 10)).isDigit = true :=
      digitChar_isDigit _ (Nat.mod_lt n (by omega))
    by_cases h : n / 10 = 0
    · rw [if_pos h] at hc
      rcases List.mem_cons.mp hc with rfl | hc'
      · exact hd
      · exact hacc c hc'
    · rw [if_neg h] at hc
      refine ih (n / 10) _ ?_ c hc
      intro x hx
      rcases List.mem_cons.mp hx with rfl | hx'
      · exact hd
      · exact hacc x hx'

theorem natRepr_digits (n : Nat) : ∀ c ∈ (Nat.repr n).data, c.isDigit = true := by
  intro c hc
  exact toDigitsCore_digits (n + 1) n [] (by simp) c hc

theorem formatNumber_tail_digits (v : Int) :
    ∀ c ∈ (formatNumber v).data.drop 1, c.isDigit = true := by
  intro c hc
  cases v with
  | ofNat m =>
    have h : (formatNumber (Int.ofNat m)).data = (Nat.repr m).data := rfl
    rw [h] at hc
    exact natRepr_digits m c (List.mem_of_mem_drop hc)
  | negSucc m =>
    have h : (formatNumber (Int.negSucc m)).data = '-' :: (Nat.repr (m + 1)).data := rfl
    rw [h] at hc
    exact natRepr_digits (m + 1) c (by simpa using hc)

theorem digit_not_opChar {c : Char} (hd : c.isDigit = true) (hc : c ∈ opChars) :
    False := by
  have : ∀ x ∈ opChars, x.isDigit = false := by decide
  rw [this c hc] at hd
  exact Bool.false_ne_true hd

theorem toDigitsCore_eq_nil :
    ∀ (fuel n : Nat) (acc : List Char),
      Nat.toDigitsCore 10 fuel n acc = [] → acc = [] ∧ fuel = 0 := by
  intro fuel
  induction fuel with
  | zero => intro n acc h; exact ⟨h, rfl⟩
  | succ f ih =>
    intro n acc h
    rw [Nat.toDigitsCore] at h
    by_cases hn : n / 10 = 0
    · rw [if_pos hn] at h; simp at h
    · rw [if_neg hn] at h
      obtain ⟨h1, _⟩ := ih _ _ h
      simp at h1

theorem formatNumber_data_ne_nil (v : Int) : (formatNumber v).data ≠ [] := by
  cases v with
  | ofNat m =>
    have h : (formatNumber (Int.ofNat m)).data = Nat.toDigitsCore 10 (m + 1) m [] := rfl
    rw [h]
    intro hh
    obtain ⟨_, hf⟩ := toDigitsCore_eq_nil _ _ _ hh
    omega
  | negSucc m =>
    have h : (formatNumber (Int.negSucc m)).data = '-' :: (Nat.repr (m + 1)).data := rfl
    rw [h]
    simp

theorem reprNode_num (v : Int) : reprNode (.num v) = formatNumber v := by
  simp [reprNode]

theorem mem_sortExpressions {l : List ExpressionNode} {x : ExpressionNode} :
    x ∈ sortExpressions l ↔ x ∈ l :=
  mem_insertionSort exprLE

theorem sortExpressions_length (l : List ExpressionNode) :
    (sortExpressions l).length = l.length :=
  (insertionSort_perm exprLE l).length_eq

theorem sortExpressions_ne_nil {l : List ExpressionNode} (h : l ≠ []) :
    sortExpressions l ≠ [] := by
  intro hh
  apply h
  have := sortExpressions_length l
  rw [hh] at this
  exact List.length_eq_zero.mp this.symm

theorem reprNode_addGroup_data (f : Fraction) (ps ns : List ExpressionNode)
    (hps : ps ≠ []) :
    ∃ (m1 : ExpressionNode) (rest : List ExpressionNode),
      sortExpressions ps = m1 :: rest ∧ m1 ∈ ps ∧
      (reprNode (.addGroup f ps ns)).data =
        (reprNode m1).data ++
          ((rest.map addPosPart ++ (sortExpressions ns).map addNegPart).map
            String.data).flatten := by
  obtain ⟨m1, rest, heq⟩ := List.exists_cons_of_ne_nil (sortExpressions_ne_nil hps)
  refine ⟨m1, rest, heq, mem_sortExpressions.mp (heq ▸ List.mem_cons_self _ _), ?_⟩
  rw [reprNode_addGroup, heq, List.map_cons, List.cons_append]
  refine stripLeading_data_cons ?_
  rw [stringJoin_data, List.map_cons, List.flatten_cons]
  have h1 : (addPosPart m1).data = '+' :: (reprNode m1).data := rfl
  rw [h1, List.cons_append]

theorem reprNode_mulGroup_data (f : Fraction) (ps ns : List ExpressionNode)
    (hps : ps ≠ []) :
    ∃ (m1 : ExpressionNode) (rest : List ExpressionNode),
      sortExpressions ps = m1 :: rest ∧ m1 ∈ ps ∧
      (reprNode (.mulGroup f ps ns)).data =
        (if m1.isNum then reprNode m1 else "(" ++ reprNode m1 ++ ")").data ++
          ((rest.map mulPosPart ++ (sortExpressions ns).map mulNegPart).map
            String.data).flatten := by
  obtain ⟨m1, rest, heq⟩ := List.exists_cons_of_ne_nil (sortExpressions_ne_nil hps)
  refine ⟨m1, rest, heq, mem_sortExpressions.mp (heq ▸ List.mem_cons_self _ _), ?_⟩
  rw [reprNode_mulGroup, heq, List.map_cons, List.cons_append]
  refine stripLeading_data_cons ?_
  rw [stringJoin_data, List.map_cons, List.flatten_cons]
  have h1 : (mulPosPart m1).data =
      '*' :: (if m1.isNum then reprNode m1 else "(" ++ reprNode m1 ++ ")").data := by
    rw [mulPosPart, String.data_append]
    rfl
  rw [h1, List.cons_append]

theorem good_repr_data_ne_nil {e : ExpressionNode} (h : Good e) :
    (reprNode e).data ≠ [] := by
  induction h with
  | num v =>
    rw [reprNode_num]
    exact formatNumber_data_ne_nil v
  | add f ps ns hne hlen hmem hflat hf ih =>
    obtain ⟨m1, rest, heq, hm1, hdata⟩ := reprNode_addGroup_data f ps ns hne
    rw [hdata]
    intro hh
    exact ih m1 (List.mem_append.mpr (Or.inl hm1)) (List.append_eq_nil.mp hh).1
  | mul f ps ns hne hlen hmem hflat hf ih =>
    obtain ⟨m1, rest, heq, hm1, hdata⟩ := reprNode_mulGroup_data f ps ns hne
    rw [hdata]
    intro hh
    have hhead := (List.append_eq_nil.mp hh).1
    by_cases hn : m1.isNum = true
    · rw [if_pos hn] at hhead
      exact ih m1 (List.mem_append.mpr (Or.inl hm1)) hhead
    · rw [if_neg hn] at hhead
      simp at hhead

theorem good_addGroup_op_in_tail {f : Fraction} {ps ns : List ExpressionNode}
    (h : Good (.addGroup f ps ns)) :
    ∃ c ∈ (reprNode (.addGroup f ps ns)).data.drop 1, c ∈ opChars := by
  cases h with
  | add _ _ _ hne hlen hmem hflat hf =>
    obtain ⟨m1, rest, heq, hm1, hdata⟩ := reprNode_addGroup_data f ps ns hne
    rw [hdata]
    have hr1 : (reprNode m1).data ≠ [] :=
      good_repr_data_ne_nil (hmem m1 (List.mem_append.mpr (Or.inl hm1)))
    obtain ⟨c0, r1, hr1eq⟩ := List.exists_cons_of_ne_nil hr1
    rw [hr1eq, List.cons_append, List.drop_succ_cons, List.drop_zero]
    have hrestlen : 1 ≤ rest.length + (sortExpressions ns).length := by
      have h1 := sortExpressions_length ps
      have h2 := sortExpressions_length ns
      rw [heq] at h1
      simp only [List.length_cons] at h1
      omega
    cases rest with
    | cons r2 rest' =>
      refine ⟨'+', ?_, by simp [opChars]⟩
      refine List.mem_append_right _ ?_
      rw [List.map_cons, List.cons_append, List.map_cons, List.flatten_cons]
      exact List.mem_append_left _ (by exact List.mem_cons_self _ _)
    | nil =>
      simp only [List.length_nil, Nat.zero_add] at hrestlen
      have hsne : sortExpressions ns ≠ [] := by
        intro hx
        rw [hx] at hrestlen
        simp at hrestlen
      obtain ⟨n1, ns', hnseq⟩ := List.exists_cons_of_ne_nil hsne
      refine ⟨'-', ?_, by simp [opChars]⟩
      refine List.mem_append_right _ ?_
      rw [hnseq]
      simp only [List.map_nil, List.nil_append, List.map_cons, List.flatten_cons]
      refine List.mem_append_left _ ?_
      have : ∃ t, (addNegPart n1).data = '-' :: t := by
        rw [addNegPart]
        by_cases hb : n1.isAddGroup = true
        · rw [if_pos hb]; exact ⟨_, rfl⟩
        · rw [if_neg hb]; exact ⟨_, rfl⟩
      obtain ⟨t, ht⟩ := this
      rw [ht]
      exact List.mem_cons_self _ _

/-- A numeric leaf never renders like a well-formed `AddGroup`. -/
theorem num_repr_ne_addGroup_repr {v : Int} {f : Fraction}
    {ps ns : List ExpressionNode} (h : Good (.addGroup f ps ns)) :
    reprNode (.num v) ≠ reprNode (.addGroup f ps ns) := by
  intro heq
  obtain ⟨c, hc, hcop⟩ := good_addGroup_op_in_tail h
  rw [← heq] at hc
  have hdig : c.isDigit = true := by
    have hx : (reprNode (.num v)).data = (formatNumber v).data := by rw [reprNode_num]
    exact formatNumber_tail_digits v c (hx ▸ hc)
  exact digit_not_opChar hdig hcop

/-! ### Commutative rendering (C7) -/

theorem sortExpressions_sorted_of_good {l : List ExpressionNode}
    (h : ∀ m ∈ l, Good m) :
    (sortExpressions l).Pairwise (fun x y => exprLE x y = true) :=
  sorted_insertionSort exprLE exprLE_total l (fun x hx y hy z hz h1 h2 =>
    exprLE_trans (good_valid (h x hx)).1 (good_valid (h y hy)).1
      (good_valid (h z hz)).1 h1 h2)

theorem map_sortExpressions_eq {β : Type} (f : ExpressionNode → β)
    {l1 l2 : List ExpressionNode} (hperm : List.Perm l1 l2)
    (hg : ∀ m ∈ l1, Good m)
    (hties : ∀ x ∈ l1, ∀ y ∈ l1, exprLE x y = true → exprLE y x = true → f x = f y) :
    (sortExpressions l1).map f = (sortExpressions l2).map f := by
  have hg2 : ∀ m ∈ l2, Good m := fun m hm => hg m (hperm.mem_iff.mpr hm)
  refine map_eq_of_perm_of_sorted exprLE exprLE_total f _ _ ?_
    (sortExpressions_sorted_of_good hg) (sortExpressions_sorted_of_good hg2) ?_
  · exact ((insertionSort_perm exprLE l1).trans hperm).trans
      (insertionSort_perm exprLE l2).symm
  · intro x hx y hy h1 h2
    exact hties x (mem_sortExpressions.mp hx) y (mem_sortExpressions.mp hy) h1 h2

theorem mulPart_tie {x y : ExpressionNode} (hx : Good x) (hy : Good y)
    (hxm : x.isMulGroup = false) (hym : y.isMulGroup = false)
    (hrepr : reprNode x = reprNode y) :
    (if x.isNum then reprNode x else "(" ++ reprNode x ++ ")") =
      (if y.isNum then reprNode y else "(" ++ reprNode y ++ ")") := by
  cases x with
  | num v =>
    cases y with
    | num w => simp [ExpressionNode.isNum, hrepr]
    | addGroup g qs ms => exact absurd hrepr (num_repr_ne_addGroup_repr hy)
    | mulGroup _ _ _ => simp [ExpressionNode.isMulGroup] at hym
  | addGroup g qs ms =>
    cases y with
    | num w => exact absurd hrepr.symm (num_repr_ne_addGroup_repr hx)
    | addGroup _ _ _ => simp [ExpressionNode.isNum, hrepr]
    | mulGroup _ _ _ => simp [ExpressionNode.isMulGroup] at hym
  | mulGroup _ _ _ => simp [ExpressionNode.isMulGroup] at hxm

theorem joinAddGroup_comm_repr {A B : ExpressionNode} (hA : Good A) (hB : Good B) :
    reprNode (joinAddGroup A B false) = reprNode (joinAddGroup B A false) := by
  rw [joinAddGroup_eq A B false, joinAddGroup_eq B A false,
    reprNode_addGroup, reprNode_addGroup]
  have hgoodp : ∀ m ∈ (addParts A false).1 ++ (addParts B false).1, Good m := by
    intro m hm
    rcases List.mem_append.mp hm with h | h
    · exact addParts_mem_good hA false m (List.mem_append.mpr (Or.inl h))
    · exact addParts_mem_good hB false m (List.mem_append.mpr (Or.inl h))
  have hgoodn : ∀ m ∈ (addParts A false).2 ++ (addParts B false).2, Good m := by
    intro m hm
    rcases List.mem_append.mp hm with h | h
    · exact addParts_mem_good hA false m (List.mem_append.mpr (Or.inr h))
    · exact addParts_mem_good hB false m (List.mem_append.mpr (Or.inr h))
  have hnadd : ∀ m ∈ (addParts A false).2 ++ (addParts B false).2,
      m.isAddGroup = false := by
    intro m hm
    rcases List.mem_append.mp hm with h | h
    · exact addParts_mem_not_addGroup hA false m (List.mem_append.mpr (Or.inr h))
    · exact addParts_mem_not_addGroup hB false m (List.mem_append.mpr (Or.inr h))
  have hpos : (sortExpressions ((addParts A false).1 ++ (addParts B false).1)).map
      addPosPart =
      (sortExpressions ((addParts B false).1 ++ (addParts A false).1)).map addPosPart :=
    map_sortExpressions_eq addPosPart List.perm_append_comm hgoodp
      (fun x _ y _ h1 h2 => by rw [addPosPart, addPosPart, (exprLE_tie h1 h2).2])
  have hneg : (sortExpressions ((addParts A false).2 ++ (addParts B false).2)).map
      addNegPart =
      (sortExpressions ((addParts B false).2 ++ (addParts A false).2)).map addNegPart :=
    map_sortExpressions_eq addNegPart List.perm_append_comm hgoodn
      (fun x hx y hy h1 h2 => by
        rw [addNegPart, addNegPart, if_neg (by simp [hnadd x hx]),
          if_neg (by simp [hnadd y hy]), (exprLE_tie h1 h2).2])
  rw [hpos, hneg]

theorem joinMulGroup_some_shape {A B : ExpressionNode} {C : ExpressionNode} (inv : Bool)
    (h : joinMulGroup A B inv = some C) :
    ∃ f, calculateMulGroupFraction ((mulParts A false).1 ++ (mulParts B inv).1)
        ((mulParts A false).2 ++ (mulParts B inv).2) = some f ∧
      C = .mulGroup f ((mulParts A false).1 ++ (mulParts B inv).1)
        ((mulParts A false).2 ++ (mulParts B inv).2) := by
  rw [joinMulGroup_eq] at h
  cases hcalc : calculateMulGroupFraction ((mulParts A false).1 ++ (mulParts B inv).1)
      ((mulParts A false).2 ++ (mulParts B inv).2) with
  | none => rw [hcalc] at h; simp at h
  | some f =>
    rw [hcalc] at h
    simp only [Option.some.injEq] at h
    exact ⟨f, rfl, h.symm⟩

theorem joinMulGroup_comm_repr {A B : ExpressionNode} (hA : Good A) (hB : Good B) :
    Option.map reprNode (joinMulGroup A B false) =
      Option.map reprNode (joinMulGroup B A false) := by
  obtain ⟨C1, hC1⟩ := Option.isSome_iff_exists.mp (joinMulGroup_not_inverted_isSome hA hB)
  obtain ⟨C2, hC2⟩ := Option.isSome_iff_exists.mp (joinMulGroup_not_inverted_isSome hB hA)
  obtain ⟨f1, hf1, hC1eq⟩ := joinMulGroup_some_shape false hC1
  obtain ⟨f2, hf2, hC2eq⟩ := joinMulGroup_some_shape false hC2
  rw [hC1, hC2, Option.map_some', Option.map_some', hC1eq, hC2eq]
  have hgoodp : ∀ m ∈ (mulParts A false).1 ++ (mulParts B false).1, Good m := by
    intro m hm
    rcases List.mem_append.mp hm with h | h
    · exact mulParts_mem_good hA false m (List.mem_append.mpr (Or.inl h))
    · exact mulParts_mem_good hB false m (List.mem_append.mpr (Or.inl h))
  have hgoodn : ∀ m ∈ (mulParts A false).2 ++ (mulParts B false).2, Good m := by
    intro m hm
    rcases List.mem_append.mp hm with h | h
    · exact mulParts_mem_good hA false m (List.mem_append.mpr (Or.inr h))
    · exact mulParts_mem_good hB false m (List.mem_append.mpr (Or.inr h))
  have hnmulp : ∀ m ∈ (mulParts A false).1 ++ (mulParts B false).1,
      m.isMulGroup = false := by
    intro m hm
    rcases List.mem_append.mp hm with h | h
    · exact mulParts_mem_not_mulGroup hA false m (List.mem_append.mpr (Or.inl h))
    · exact mulParts_mem_not_mulGroup hB false m (List.mem_append.mpr (Or.inl h))
  have hnmuln : ∀ m ∈ (mulParts A false).2 ++ (mulParts B false).2,
      m.isMulGroup = false := by
    intro m hm
    rcases List.mem_append.mp hm with h | h
    · exact mulParts_mem_not_mulGroup hA false m (List.mem_append.mpr (Or.inr h))
    · exact mulParts_mem_not_mulGroup hB false m (List.mem_append.mpr (Or.inr h))
  rw [reprNode_mulGroup, reprNode_mulGroup]
  have hpos : (sortExpressions ((mulParts A false).1 ++ (mulParts B false).1)).map
      mulPosPart =
      (sortExpressions ((mulParts B false).1 ++ (mulParts A false).1)).map mulPosPart :=
    map_sortExpressions_eq mulPosPart List.perm_append_comm hgoodp
      (fun x hx y hy h1 h2 => by
        rw [mulPosPart, mulPosPart,
          mulPart_tie (hgoodp x hx) (hgoodp y hy) (hnmulp x hx) (hnmulp y hy)
            (exprLE_tie h1 h2).2])
  have hneg : (sortExpressions ((mulParts A false).2 ++ (mulParts B false).2)).map
      mulNegPart =
      (sortExpressions ((mulParts B false).2 ++ (mulParts A false).2)).map mulNegPart :=
    map_sortExpressions_eq mulNegPart List.perm_append_comm hgoodn
      (fun x hx y hy h1 h2 => by
        rw [mulNegPart, mulNegPart,
          mulPart_tie (hgoodn x hx) (hgoodn y hy) (hnmuln x hx) (hnmuln y hy)
            (exprLE_tie h1 h2).2])
  rw [hpos, hneg]

/--
**C7.** For reachable nodes `A`, `B`: the node built for `A + B` and the node
built for `B + A` (`joinAddGroup` with negate = false, arguments swapped)
render to identical canonical text; likewise `A × B` and `B × A`
(`joinMulGroup` with invert = false) succeed together and render to identical
canonical text.
-/
theorem C7_commutative_rendering (A B : ExpressionNode)
    (hA : Reachable A) (hB : Reachable B) :
    reprNode (joinAddGroup A B false) = reprNode (joinAddGroup B A false) ∧
      Option.map reprNode (joinMulGroup A B false) =
        Option.map reprNode (joinMulGroup B A false) :=
  ⟨joinAddGroup_comm_repr (reachable_good hA) (reachable_good hB),
    joinMulGroup_comm_repr (reachable_good hA) (reachable_good hB)⟩

theorem C7_commutative_rendering_witness :
    reprNode (joinAddGroup (joinAddGroup (.num 1) (.num 2) false) (.num 3) false) =
      reprNode (joinAddGroup (.num 3) (joinAddGroup (.num 1) (.num 2) false) false) ∧
    Option.map reprNode
        (joinMulGroup (joinAddGroup (.num 1) (.num 2) false) (.num 3) false) =
      Option.map reprNode
        (joinMulGroup (.num 3) (joinAddGroup (.num 1) (.num 2) false) false) :=
  C7_commutative_rendering _ _
    (Reachable.add false (Reachable.leaf 1) (Reachable.leaf 2)) (Reachable.leaf 3)

/-! ### Parenthesization (C6) -/

theorem infix_flatten {α : Type} {x : List α} {l : List (List α)} (h : x ∈ l) :
    x <:+: l.flatten := by
  obtain ⟨s, t, hst⟩ := List.append_of_mem h
  rw [hst, List.flatten_append, List.flatten_cons, ← List.append_assoc]
  exact List.infix_append _ _ _

theorem infix_tail_of_head_ne {α : Type} {x : List α} {c : α} {t : List α}
    (h : x <:+: c :: t) (hx : x ≠ []) (hne : ∀ r, x ≠ c :: r) : x <:+: t := by
  obtain ⟨s, e, hse⟩ := h
  cases s with
  | nil =>
    simp only [List.nil_append] at hse
    cases x with
    | nil => exact absurd rfl hx
    | cons x0 xs =>
      rw [List.cons_append] at hse
      cases hse
      exact absurd rfl (hne xs)
  | cons s0 s' =>
    rw [List.cons_append, List.cons_append] at hse
    cases hse
    exact ⟨s', e, rfl⟩

/--
**C6 (amended).**  In the canonical rendering of a reachable `MulGroup`, every
member that is not a numeric leaf (in particular every `AdditiveGroup`
member) appears wrapped in parentheses.  In the canonical rendering of a
reachable `AddGroup`, members are not parenthesized at all: the renderer's
only parenthesizing branch (a negative `AddGroup` member) never fires because
a member of the same kind never appears nested; in particular a
`MultiplicativeGroup` member inside an `AddGroup`'s rendering is **not**
parenthesized (this corrects the claim, see `C6_counterexample`).
-/
theorem C6_parenthesization_amended (e : ExpressionNode) (h : Reachable e) :
    (∀ f ps ns, e = .mulGroup f ps ns →
      ∀ m ∈ ps ++ ns, m.isNum = false →
        ("(" ++ reprNode m ++ ")").data <:+: (reprNode e).data) ∧
    (∀ f ps ns, e = .addGroup f ps ns →
      reprNode e = stripLeading '+' (String.join
        ((sortExpressions ps).map (fun x => "+" ++ reprNode x)
          ++ (sortExpressions ns).map (fun x => "-" ++ reprNode x)))) ∧
    (∀ f ps ns, e = .addGroup f ps ns → ∀ m ∈ ps ++ ns, m.isAddGroup = false) ∧
    (∀ f ps ns, e = .mulGroup f ps ns → ∀ m ∈ ps ++ ns, m.isMulGroup = false) := by
  have hgood := reachable_good h
  refine ⟨?_, ?_, ?_, ?_⟩
  · rintro f ps ns rfl m hm hnum
    cases hgood with
    | mul _ _ _ hne hlen hmem hflat hf =>
      have hpart : ∃ p : String, ((p ∈ (sortExpressions ps).map mulPosPart ++
          (sortExpressions ns).map mulNegPart) ∧
          ∃ c : Char, p.data = c :: ("(" ++ reprNode m ++ ")").data ∧ c ≠ '(') := by
        rcases List.mem_append.mp hm with hmp | hmn
        · refine ⟨mulPosPart m, List.mem_append_left _
            (List.mem_map_of_mem _ (mem_sortExpressions.mpr hmp)), '*', ?_, by decide⟩
          rw [mulPosPart, if_neg (by simp [hnum])]
          rfl
        · refine ⟨mulNegPart m, List.mem_append_right _
            (List.mem_map_of_mem _ (mem_sortExpressions.mpr hmn)), '/', ?_, by decide⟩
          rw [mulNegPart, if_neg (by simp [hnum])]
          rfl
      obtain ⟨p, hpmem, c, hpdata, hcne⟩ := hpart
      have htargetp : ("(" ++ reprNode m ++ ")").data <:+: p.data := by
        rw [hpdata]
        exact ⟨[c], [], by simp⟩
      have hpj : p.data <:+:
          (String.join ((sortExpressions ps).map mulPosPart ++
            (sortExpressions ns).map mulNegPart)).data := by
        rw [stringJoin_data]
        exact infix_flatten (List.mem_map_of_mem _ hpmem)
      have htargetj := htargetp.trans hpj
      obtain ⟨m1, rest, heq, hm1, hdata⟩ := reprNode_mulGroup_data f ps ns hne
      have hjoindata : (String.join ((sortExpressions ps).map mulPosPart ++
          (sortExpressions ns).map mulNegPart)).data =
          '*' :: ((if m1.isNum then reprNode m1 else "(" ++ reprNode m1 ++ ")").data ++
            ((rest.map mulPosPart ++ (sortExpressions ns).map mulNegPart).map
              String.data).flatten) := by
        rw [heq, List.map_cons, List.cons_append, stringJoin_data, List.map_cons,
          List.flatten_cons]
        have h1 : (mulPosPart m1).data =
            '*' :: (if m1.isNum then reprNode m1 else "(" ++ reprNode m1 ++ ")").data := by
          rw [mulPosPart, String.data_append]
          rfl
        rw [h1, List.cons_append]
      rw [hjoindata] at htargetj
      have htail := infix_tail_of_head_ne htargetj (by simp)
        (by
          intro r hr
          have hh := congrArg (fun l => l.head?) hr
          simp at hh)
      rw [reprNode_mulGroup, heq, List.map_cons, List.cons_append]
      have hjoin2 : (String.join (mulPosPart m1 :: (rest.map mulPosPart ++
          (sortExpressions ns).map mulNegPart))).data =
          '*' :: ((if m1.isNum then reprNode m1 else "(" ++ reprNode m1 ++ ")").data ++
            ((rest.map mulPosPart ++ (sortExpressions ns).map mulNegPart).map
              String.data).flatten) := by
        rw [stringJoin_data, List.map_cons, List.flatten_cons]
        have h1 : (mulPosPart m1).data =
            '*' :: (if m1.isNum then reprNode m1 else "(" ++ reprNode m1 ++ ")").data := by
          rw [mulPosPart, String.data_append]
          rfl
        rw [h1, List.cons_append]
      rw [stripLeading_data_cons hjoin2]
      have hrw : (String.join ((sortExpressions ps).map mulPosPart ++
          (sortExpressions ns).map mulNegPart)).data =
          (String.join (mulPosPart m1 :: (rest.map mulPosPart ++
            (sortExpressions ns).map mulNegPart))).data := by
        rw [heq, List.map_cons, List.cons_append]
      exact htail
  · rintro f ps ns rfl
    cases hgood with
    | add _ _ _ hne hlen hmem hflat hf =>
      rw [reprNode_addGroup]
      have hmap : (sortExpressions ns).map addNegPart =
          (sortExpressions ns).map (fun x => "-" ++ reprNode x) := by
        refine List.map_congr_left ?_
        intro m hm
        rw [addNegPart,
          if_neg (by simp [hflat m (List.mem_append.mpr (Or.inr (mem_sortExpressions.mp hm)))])]
      rw [hmap]
      rfl
  · rintro f ps ns rfl
    cases hgood with
    | add _ _ _ hne hlen hmem hflat hf => exact hflat
  · rintro f ps ns rfl
    cases hgood with
    | mul _ _ _ hne hlen hmem hflat hf => exact hflat

/--
**C6 (counterexample).**  The claim "every member of the other group kind is
parenthesized" is false: the `MulGroup` member `2*3` of the reachable
`AddGroup` built for `(2*3) + 1` appears in the rendering `1+2*3` without any
parentheses at all.
-/
theorem C6_counterexample :
    joinMulGroup (.num 2) (.num 3) false =
      some (.mulGroup ⟨6, 1⟩ [.num 2, .num 3] []) ∧
    joinAddGroup (.mulGroup ⟨6, 1⟩ [.num 2, .num 3] []) (.num 1) false =
      .addGroup ⟨7, 1⟩ [.mulGroup ⟨6, 1⟩ [.num 2, .num 3] [], .num 1] [] ∧
    reprNode (.mulGroup ⟨6, 1⟩ [.num 2, .num 3] []) = "2*3" ∧
    reprNode (.addGroup ⟨7, 1⟩ [.mulGroup ⟨6, 1⟩ [.num 2, .num 3] [], .num 1] []) =
      "1+2*3" ∧
    '(' ∉ (reprNode (.addGroup ⟨7, 1⟩
      [.mulGroup ⟨6, 1⟩ [.num 2, .num 3] [], .num 1] [])).data := by
  decide

theorem C6_parenthesization_amended_witness :
    ("(" ++ reprNode (ExpressionNode.addGroup ⟨3, 1⟩ [.num 1, .num 2] []) ++ ")").data <:+:
      (reprNode (ExpressionNode.mulGroup ⟨18, 1⟩
        [.addGroup ⟨3, 1⟩ [.num 1, .num 2] [], .num 6] [])).data :=
  (C6_parenthesization_amended _
    (Reachable.mul false
      (Reachable.add false (Reachable.leaf 1) (Reachable.leaf 2))
      (Reachable.leaf 6) (by decide))).1
    ⟨18, 1⟩ [.addGroup ⟨3, 1⟩ [.num 1, .num 2] [], .num 6] [] rfl
    (.addGroup ⟨3, 1⟩ [.num 1, .num 2] []) (by decide) (by decide)

/-! ### The search engine: generic fold lemmas and basic facts -/

theorem foldl_invariant {α σ : Type} (P : σ → Prop) (f : σ → α → σ)
    (hstep : ∀ s x, P s → P (f s x)) :
    ∀ (l : List α) (s : σ), P s → P (l.foldl f s) := by
  intro l
  induction l with
  | nil => intro s h; exact h
  | cons x t ih => intro s h; exact ih _ (hstep s x h)

theorem foldl_invariant_mem {α σ : Type} (P : σ → Prop) (f : σ → α → σ) :
    ∀ (l : List α), (∀ s x, x ∈ l → P s → P (f s x)) →
      ∀ (s : σ), P s → P (l.foldl f s) := by
  intro l
  induction l with
  | nil => intro _ s h; exact h
  | cons x t ih =>
    intro hstep s h
    exact ih (fun s' y hy => hstep s' y (by simp [hy])) _ (hstep s x (by simp) h)

theorem foldl_rel {α σ : Type} (R : σ → σ → Prop) (htrans : ∀ {a b c}, R a b → R b c → R a c)
    (f : σ → α → σ) (hstep : ∀ s x, R s (f s x)) (hrefl : ∀ s, R s s) :
    ∀ (l : List α) (s : σ), R s (l.foldl f s) := by
  intro l
  induction l with
  | nil => intro s; exact hrefl s
  | cons x t ih => intro s; exact htrans (hstep s x) (ih (f s x))

theorem foldl_congr_of_mem {α σ : Type} {f g : σ → α → σ} :
    ∀ (l : List α) (s : σ), (∀ s' x, x ∈ l → f s' x = g s' x) →
      l.foldl f s = l.foldl g s := by
  intro l
  induction l with
  | nil => intro s _; rfl
  | cons x t ih =>
    intro s h
    rw [List.foldl_cons, List.foldl_cons, h s x (by simp)]
    exact ih _ (fun s' y hy => h s' y (by simp [hy]))

theorem mem_pairIndices {n i j : Nat} : (i, j) ∈ pairIndices n ↔ i < j ∧ j < n := by
  simp only [pairIndices, List.mem_flatMap, List.mem_map, List.mem_range, Prod.mk.injEq,
    List.mem_range']
  constructor
  · rintro ⟨a, ha, b, ⟨k, hk, hb⟩, rfl, rfl⟩
    omega
  · rintro ⟨hij, hjn⟩
    exact ⟨i, by omega, j, ⟨j - (i + 1), by omega⟩, rfl, rfl⟩

/-- The inner double loop of `searchSolutions`, as a function of the pair of indices. -/
def searchStep (fuel : Nat) (terms : List ExpressionNode) (target : Fraction)
    (cap : Option Int) (st1 : SearchState) (ij : Nat × Nat) : SearchState :=
  let first := terms.getD ij.1 (.num 0)
  let second := terms.getD ij.2 (.num 0)
  let remaining := (terms.eraseIdx ij.2).eraseIdx ij.1
  (combineExpressions first second).foldl
    (fun st2 next =>
      if capReached cap st2.solutions.length then st2
      else searchSolutions fuel (remaining ++ [next]) target cap st2)
    st1

theorem searchSolutions_succ_single (f : Nat) (t : ExpressionNode) (target : Fraction)
    (cap : Option Int) (st : SearchState) :
    searchSolutions (f + 1) [t] target cap st =
      if capReached cap st.solutions.length then st
      else if fractionsEqual t.fraction target then
        if st.seenExpressions.contains (reprNode t) then st
        else
          { solutions := st.solutions
              ++ [{ expression := reprNode t
                    value := fractionToNumber t.fraction }]
            seenExpressions := reprNode t :: st.seenExpressions }
      else st := by
  rw [searchSolutions]

theorem searchSolutions_succ_cons (f : Nat) (t1 t2 : ExpressionNode)
    (ts : List ExpressionNode) (target : Fraction) (cap : Option Int) (st : SearchState) :
    searchSolutions (f + 1) (t1 :: t2 :: ts) target cap st =
      if capReached cap st.solutions.length then st
      else (pairIndices (t1 :: t2 :: ts).length).foldl
        (searchStep f (t1 :: t2 :: ts) target cap) st := by
  rw [searchSolutions]
  · rfl
  · intro t h
    simp at h

theorem searchSolutions_succ_empty (f : Nat) (target : Fraction) (cap : Option Int)
    (st : SearchState) : searchSolutions (f + 1) [] target cap st = st := by
  rw [searchSolutions]
  · split <;> rfl
  · intro t h
    exact List.noConfusion h

/-- A pool of 0 or 1 nodes spawns no pairs, so the state is returned as is. -/
theorem searchSolutions_nil (fuel : Nat) (target : Fraction) (cap : Option Int)
    (st : SearchState) : searchSolutions fuel [] target cap st = st := by
  cases fuel with
  | zero => rfl
  | succ f => exact searchSolutions_succ_empty f target cap st

/-- Once the cap is reached the search returns its state unchanged. -/
theorem searchSolutions_capped {fuel : Nat} {terms : List ExpressionNode}
    {target : Fraction} {cap : Option Int} {st : SearchState}
    (h : capReached cap st.solutions.length = true) :
    searchSolutions fuel terms target cap st = st := by
  cases fuel with
  | zero => rfl
  | succ f =>
    match terms with
    | [] => rw [searchSolutions_succ_empty]
    | [t] => rw [searchSolutions_succ_single, if_pos h]
    | t1 :: t2 :: ts => rw [searchSolutions_succ_cons, if_pos h]

/--
The solutions list only grows (as a prefix), and the seen-set is untouched
whenever no solution is emitted.
-/
def StateLe (s s' : SearchState) : Prop :=
  s.solutions <+: s'.solutions ∧
    (s'.solutions = s.solutions → s'.seenExpressions = s.seenExpressions)

theorem stateLe_refl (s : SearchState) : StateLe s s := ⟨List.prefix_refl _, fun _ => rfl⟩

theorem stateLe_trans {a b c : SearchState} (h1 : StateLe a b) (h2 : StateLe b c) :
    StateLe a c := by
  refine ⟨h1.1.trans h2.1, ?_⟩
  intro hac
  have hlen : b.solutions.length ≤ c.solutions.length := h2.1.length_le
  have hlen2 : a.solutions.length ≤ b.solutions.length := h1.1.length_le
  have hba : b.solutions = a.solutions := by
    refine (List.IsPrefix.eq_of_length h1.1 ?_).symm
    have := congrArg List.length hac
    omega
  have hcb : c.solutions = b.solutions := by rw [hac, hba]
  rw [h2.2 hcb, h1.2 hba]

theorem searchSolutions_stateLe :
    ∀ (fuel : Nat) (terms : List ExpressionNode) (target : Fraction)
      (cap : Option Int) (st : SearchState),
      StateLe st (searchSolutions fuel terms target cap st) := by
  intro fuel
  induction fuel with
  | zero => intro terms target cap st; exact stateLe_refl st
  | succ f ih =>
    intro terms target cap st
    match terms with
    | [] => rw [searchSolutions_succ_empty]; exact stateLe_refl st
    | [t] =>
      rw [searchSolutions_succ_single]
      by_cases hcap : capReached cap st.solutions.length = true
      · rw [if_pos hcap]; exact stateLe_refl st
      · rw [if_neg hcap]
        by_cases heq : fractionsEqual t.fraction target = true
        · rw [if_pos heq]
          by_cases hseen : st.seenExpressions.contains (reprNode t) = true
          · rw [if_pos hseen]; exact stateLe_refl st
          · rw [if_neg hseen]
            refine ⟨List.prefix_append _ _, ?_⟩
            intro habs
            have := congrArg List.length habs
            simp at this
        · rw [if_neg heq]; exact stateLe_refl st
    | t1 :: t2 :: ts =>
      rw [searchSolutions_succ_cons]
      by_cases hcap : capReached cap st.solutions.length = true
      · rw [if_pos hcap]; exact stateLe_refl st
      · rw [if_neg hcap]
        refine foldl_rel StateLe stateLe_trans _ ?_ stateLe_refl _ st
        intro s ij
        simp only [searchStep]
        refine foldl_rel StateLe stateLe_trans _ ?_ stateLe_refl _ s
        intro s2 next
        by_cases hc : capReached cap s2.solutions.length = true
        · rw [if_pos hc]; exact stateLe_refl s2
        · rw [if_neg hc]; exact ih _ _ _ s2

theorem capReached_none (n : Nat) : capReached none n = false := rfl

theorem capReached_pos {cap : Option Int} {n : Nat}
    (h : capReached cap n = true) (hc : capNonpositive cap = false) : 0 < n := by
  cases cap with
  | none => simp [capReached] at h
  | some m =>
    simp only [capReached, decide_eq_true_eq] at h
    simp only [capNonpositive, decide_eq_false_iff_not] at hc
    omega

theorem contains_iff_mem {l : List String} {a : String} :
    l.contains a = true ↔ a ∈ l := by
  simp [List.contains_iff_exists_mem_beq]

theorem searchStep_stateLe (f : Nat) (terms : List ExpressionNode) (target : Fraction)
    (cap : Option Int) (s : SearchState) (ij : Nat × Nat) :
    StateLe s (searchStep f terms target cap s ij) := by
  simp only [searchStep]
  refine foldl_rel StateLe stateLe_trans _ ?_ stateLe_refl _ s
  intro s2 next
  by_cases hc : capReached cap s2.solutions.length = true
  · rw [if_pos hc]; exact stateLe_refl s2
  · rw [if_neg hc]; exact searchSolutions_stateLe f _ target cap s2

theorem stateLe_emptyInv {a b : SearchState} (h : StateLe a b)
    (ha : a.solutions = [] → a.seenExpressions = []) :
    b.solutions = [] → b.seenExpressions = [] := by
  intro hb
  have ha' : a.solutions = [] := by
    have h1 := h.1
    rw [hb] at h1
    exact List.prefix_nil.mp h1
  have hba : b.solutions = a.solutions := by rw [hb, ha']
  rw [h.2 hba, ha ha']

theorem getD_reachable {terms : List ExpressionNode} (hpool : ∀ t ∈ terms, Reachable t)
    (k : Nat) : Reachable (terms.getD k (.num 0)) := by
  by_cases hk : k < terms.length
  · rw [List.getD_eq_getElem _ _ hk]
    exact hpool _ (List.getElem_mem hk)
  · rw [List.getD_eq_default _ _ (by omega)]
    exact Reachable.leaf 0

theorem mem_combineExpressions {A B e : ExpressionNode} :
    e ∈ combineExpressions A B ↔
      e = joinAddGroup A B false ∨ joinMulGroup A B false = some e ∨
      e = joinAddGroup A B true ∨ e = joinAddGroup B A true ∨
      joinMulGroup A B true = some e ∨ joinMulGroup B A true = some e := by
  simp only [combineExpressions, List.append_assoc, List.mem_append, List.mem_cons,
    List.not_mem_nil, or_false, Option.mem_toList, Option.mem_def]
  tauto

theorem combineExpressions_reachable {A B e : ExpressionNode}
    (hA : Reachable A) (hB : Reachable B) (h : e ∈ combineExpressions A B) :
    Reachable e := by
  rcases mem_combineExpressions.mp h with h | h | h | h | h | h
  · rw [h]; exact Reachable.add false hA hB
  · exact Reachable.mul false hA hB h
  · rw [h]; exact Reachable.add true hA hB
  · rw [h]; exact Reachable.add true hB hA
  · exact Reachable.mul true hA hB h
  · exact Reachable.mul true hB hA h

theorem remaining_sublist (terms : List ExpressionNode) (i j : Nat) :
    List.Sublist ((terms.eraseIdx j).eraseIdx i) terms :=
  ((terms.eraseIdx j).eraseIdx_sublist i).trans (terms.eraseIdx_sublist j)

theorem remaining_length {terms : List ExpressionNode} {i j : Nat}
    (hij : (i, j) ∈ pairIndices terms.length) :
    ((terms.eraseIdx j).eraseIdx i).length = terms.length - 2 := by
  obtain ⟨h1, h2⟩ := mem_pairIndices.mp hij
  rw [List.length_eraseIdx_of_lt, List.length_eraseIdx_of_lt h2]
  · omega
  · rw [List.length_eraseIdx_of_lt h2]
    omega

theorem two_le_length_of_mem_ne {α : Type} {l : List α} {a b : α}
    (ha : a ∈ l) (hb : b ∈ l) (hne : a ≠ b) : 2 ≤ l.length := by
  match l with
  | [] => exact absurd ha (List.not_mem_nil a)
  | [x] =>
    rw [List.mem_singleton] at ha hb
    exact absurd (ha.trans hb.symm) hne
  | x :: y :: t => simp

/--
With `maxSolutions = m`, a search whose accumulator already satisfies the cap
bound never pushes it past `m`: the cap is consulted before every emission.
-/
theorem searchSolutions_cap_le :
    ∀ (fuel : Nat) (terms : List ExpressionNode) (target : Fraction) (m : Int)
      (st : SearchState), (st.solutions.length : Int) ≤ m →
      ((searchSolutions fuel terms target (some m) st).solutions.length : Int) ≤ m := by
  intro fuel
  induction fuel with
  | zero => intro terms target m st h; exact h
  | succ f ih =>
    intro terms target m st h
    match terms with
    | [] => rw [searchSolutions_succ_empty]; exact h
    | [t] =>
      rw [searchSolutions_succ_single]
      by_cases hc : capReached (some m) st.solutions.length = true
      · rw [if_pos hc]; exact h
      · rw [if_neg hc]
        by_cases heq : fractionsEqual t.fraction target = true
        · rw [if_pos heq]
          by_cases hs : st.seenExpressions.contains (reprNode t) = true
          · rw [if_pos hs]; exact h
          · rw [if_neg hs]
            have hlt : ¬(m ≤ (st.solutions.length : Int)) := by
              simpa [capReached] using hc
            simp only [List.length_append, List.length_cons, List.length_nil]
            push_cast
            omega
        · rw [if_neg heq]; exact h
    | t1 :: t2 :: ts =>
      rw [searchSolutions_succ_cons]
      by_cases hc : capReached (some m) st.solutions.length = true
      · rw [if_pos hc]; exact h
      · rw [if_neg hc]
        refine foldl_invariant (fun s => ((s.solutions.length : Int)) ≤ m) _ ?_ _ st h
        intro s ij hs
        simp only [searchStep]
        refine foldl_invariant (fun s2 => ((s2.solutions.length : Int)) ≤ m) _ ?_ _ s hs
        intro s2 next hs2
        by_cases hc2 : capReached (some m) s2.solutions.length = true
        · rw [if_pos hc2]; exact hs2
        · rw [if_neg hc2]; exact ih _ _ _ s2 hs2

/-- Every seen text was recorded together with the solution carrying it. -/
def SeenInv (st : SearchState) : Prop :=
  ∀ x ∈ st.seenExpressions, ∃ s ∈ st.solutions, s.expression = x

theorem searchSolutions_seenInv :
    ∀ (fuel : Nat) (terms : List ExpressionNode) (target : Fraction) (cap : Option Int)
      (st : SearchState), SeenInv st →
      SeenInv (searchSolutions fuel terms target cap st) := by
  intro fuel
  induction fuel with
  | zero => intro terms target cap st h; exact h
  | succ f ih =>
    intro terms target cap st h
    match terms with
    | [] => rw [searchSolutions_succ_empty]; exact h
    | [t] =>
      rw [searchSolutions_succ_single]
      by_cases hc : capReached cap st.solutions.length = true
      · rw [if_pos hc]; exact h
      · rw [if_neg hc]
        by_cases heq : fractionsEqual t.fraction target = true
        · rw [if_pos heq]
          by_cases hs : st.seenExpressions.contains (reprNode t) = true
          · rw [if_pos hs]; exact h
          · rw [if_neg hs]
            intro x hx
            rcases List.mem_cons.mp hx with hx | hx
            · exact ⟨⟨reprNode t, fractionToNumber t.fraction⟩, by simp, hx.symm⟩
            · obtain ⟨s, hsmem, hsexp⟩ := h x hx
              exact ⟨s, by simp [hsmem], hsexp⟩
        · rw [if_neg heq]; exact h
    | t1 :: t2 :: ts =>
      rw [searchSolutions_succ_cons]
      by_cases hc : capReached cap st.solutions.length = true
      · rw [if_pos hc]; exact h
      · rw [if_neg hc]
        refine foldl_invariant SeenInv _ ?_ _ st h
        intro s ij hs
        simp only [searchStep]
        refine foldl_invariant SeenInv _ ?_ _ s hs
        intro s2 next hs2
        by_cases hc2 : capReached cap s2.solutions.length = true
        · rw [if_pos hc2]; exact hs2
        · rw [if_neg hc2]; exact ih _ _ _ s2 hs2

theorem searchStep_seenInv (f : Nat) (terms : List ExpressionNode) (target : Fraction)
    (cap : Option Int) (s : SearchState) (ij : Nat × Nat) (hs : SeenInv s) :
    SeenInv (searchStep f terms target cap s ij) := by
  simp only [searchStep]
  refine foldl_invariant SeenInv _ ?_ _ s hs
  intro s2 next hs2
  by_cases hc : capReached cap s2.solutions.length = true
  · rw [if_pos hc]; exact hs2
  · rw [if_neg hc]; exact searchSolutions_seenInv f _ target cap s2 hs2

/--
The solution-list invariant carried through the search: every emitted solution
comes from a reachable node whose exact fraction equals the target, its text is
that node's rendering and its value the node's exact value; the texts are
pairwise distinct; and every emitted text is in the seen-set.
-/
def SearchInv (target : Fraction) (st : SearchState) : Prop :=
  (∀ s ∈ st.solutions, ∃ e : ExpressionNode, Reachable e ∧ e.fraction = target ∧
      s.expression = reprNode e ∧ s.value = fractionToNumber e.fraction) ∧
  st.solutions.Pairwise (fun a b => a.expression ≠ b.expression) ∧
  ∀ s ∈ st.solutions, s.expression ∈ st.seenExpressions

theorem searchSolutions_inv :
    ∀ (fuel : Nat) (terms : List ExpressionNode) (target : Fraction) (cap : Option Int)
      (st : SearchState), (∀ t ∈ terms, Reachable t) → SearchInv target st →
      SearchInv target (searchSolutions fuel terms target cap st) := by
  intro fuel
  induction fuel with
  | zero => intro terms target cap st _ h; exact h
  | succ f ih =>
    intro terms target cap st hpool h
    match terms with
    | [] => rw [searchSolutions_succ_empty]; exact h
    | [t] =>
      rw [searchSolutions_succ_single]
      by_cases hc : capReached cap st.solutions.length = true
      · rw [if_pos hc]; exact h
      · rw [if_neg hc]
        by_cases heq : fractionsEqual t.fraction target = true
        · rw [if_pos heq]
          by_cases hs : st.seenExpressions.contains (reprNode t) = true
          · rw [if_pos hs]; exact h
          · rw [if_neg hs]
            have hnotseen : reprNode t ∉ st.seenExpressions := by
              intro hmem
              rw [contains_iff_mem.mpr hmem] at hs
              exact hs rfl
            refine ⟨?_, ?_, ?_⟩
            · intro s hsmem
              rcases List.mem_append.mp hsmem with hsmem | hsmem
              · exact h.1 s hsmem
              · rw [List.mem_singleton] at hsmem
                refine ⟨t, hpool t (by simp), (fractionsEqual_iff _ _).mp heq, ?_, ?_⟩
                · rw [hsmem]
                · rw [hsmem]
            · rw [List.pairwise_append]
              refine ⟨h.2.1, List.pairwise_singleton _ _, ?_⟩
              intro a ha b hb
              rw [List.mem_singleton] at hb
              rw [hb]
              intro habs
              apply hnotseen
              have hmem := h.2.2 a ha
              rw [habs] at hmem
              exact hmem
            · intro s hsmem
              rcases List.mem_append.mp hsmem with hsmem | hsmem
              · exact List.mem_cons_of_mem _ (h.2.2 s hsmem)
              · rw [List.mem_singleton] at hsmem
                rw [hsmem]
                exact List.mem_cons_self _ _
        · rw [if_neg heq]; exact h
    | t1 :: t2 :: ts =>
      rw [searchSolutions_succ_cons]
      by_cases hc : capReached cap st.solutions.length = true
      · rw [if_pos hc]; exact h
      · rw [if_neg hc]
        refine foldl_invariant (SearchInv target) _ ?_ _ st h
        intro s ij hs
        simp only [searchStep]
        refine foldl_invariant_mem (SearchInv target) _ _ ?_ _ hs
        intro s2 next hnext hs2
        by_cases hc2 : capReached cap s2.solutions.length = true
        · rw [if_pos hc2]; exact hs2
        · rw [if_neg hc2]
          refine ih _ _ _ s2 ?_ hs2
          intro u hu
          rcases List.mem_append.mp hu with hu | hu
          · exact hpool u ((remaining_sublist _ _ _).subset hu)
          · rw [List.mem_singleton] at hu
            rw [hu]
            exact combineExpressions_reachable (getD_reachable hpool ij.1)
              (getD_reachable hpool ij.2) hnext

/--
A certificate that the pool `terms` can be narrowed to the single node `e`:
repeatedly pick a pair `(i, j)` of the source's index loops and one of the
candidates `combineExpressions` offers for it, until one node remains.
-/
inductive PoolReaches : List ExpressionNode → ExpressionNode → Prop where
  | single (e : ExpressionNode) : PoolReaches [e] e
  | step {terms : List ExpressionNode} {e next : ExpressionNode} (i j : Nat)
      (hij : (i, j) ∈ pairIndices terms.length)
      (hnext : next ∈ combineExpressions (terms.getD i (.num 0)) (terms.getD j (.num 0)))
      (h : PoolReaches (((terms.eraseIdx j).eraseIdx i) ++ [next]) e) :
      PoolReaches terms e

/-- The body of the candidate loop of `searchSolutions`, as a function. -/
def innerStep (f : Nat) (remaining : List ExpressionNode) (target : Fraction)
    (cap : Option Int) (st2 : SearchState) (next : ExpressionNode) : SearchState :=
  if capReached cap st2.solutions.length then st2
  else searchSolutions f (remaining ++ [next]) target cap st2

theorem innerStep_eq (f : Nat) (remaining : List ExpressionNode) (target : Fraction)
    (cap : Option Int) (st2 : SearchState) (next : ExpressionNode) :
    innerStep f remaining target cap st2 next =
      if capReached cap st2.solutions.length then st2
      else searchSolutions f (remaining ++ [next]) target cap st2 := rfl

theorem searchStep_eq (f : Nat) (terms : List ExpressionNode) (target : Fraction)
    (cap : Option Int) (s : SearchState) (i j : Nat) :
    searchStep f terms target cap s (i, j) =
      (combineExpressions (terms.getD i (.num 0)) (terms.getD j (.num 0))).foldl
        (innerStep f ((terms.eraseIdx j).eraseIdx i) target cap) s := rfl

theorem innerStep_stateLe (f : Nat) (remaining : List ExpressionNode) (target : Fraction)
    (cap : Option Int) (s2 : SearchState) (next : ExpressionNode) :
    StateLe s2 (innerStep f remaining target cap s2 next) := by
  rw [innerStep_eq]
  by_cases hc : capReached cap s2.solutions.length = true
  · rw [if_pos hc]; exact stateLe_refl s2
  · rw [if_neg hc]; exact searchSolutions_stateLe f _ target cap s2

theorem innerFold_stateLe (f : Nat) (target : Fraction) (cap : Option Int)
    (remaining : List ExpressionNode) (C : List ExpressionNode) (s : SearchState) :
    StateLe s (C.foldl (innerStep f remaining target cap) s) :=
  foldl_rel StateLe stateLe_trans _ (innerStep_stateLe f remaining target cap)
    stateLe_refl C s

theorem pairFold_stateLe (f : Nat) (terms : List ExpressionNode) (target : Fraction)
    (cap : Option Int) (L : List (Nat × Nat)) (s : SearchState) :
    StateLe s (L.foldl (searchStep f terms target cap) s) :=
  foldl_rel StateLe stateLe_trans _ (searchStep_stateLe f terms target cap) stateLe_refl L s

theorem innerFold_seenInv (f : Nat) (target : Fraction) (cap : Option Int)
    (remaining : List ExpressionNode) (C : List ExpressionNode) (s : SearchState)
    (hs : SeenInv s) :
    SeenInv (C.foldl (innerStep f remaining target cap) s) := by
  refine foldl_invariant SeenInv _ ?_ C s hs
  intro s2 next hs2
  rw [innerStep_eq]
  by_cases hc : capReached cap s2.solutions.length = true
  · rw [if_pos hc]; exact hs2
  · rw [if_neg hc]; exact searchSolutions_seenInv f _ target cap s2 hs2

theorem pairFold_seenInv (f : Nat) (terms : List ExpressionNode) (target : Fraction)
    (cap : Option Int) (L : List (Nat × Nat)) (s : SearchState) (hs : SeenInv s) :
    SeenInv (L.foldl (searchStep f terms target cap) s) :=
  foldl_invariant SeenInv _ (fun s2 ij => searchStep_seenInv f terms target cap s2 ij) L s hs

theorem fold_chain_mem (f : Nat) (terms : List ExpressionNode) (target : Fraction)
    (cap : Option Int) (remaining : List ExpressionNode) (L2 : List (Nat × Nat))
    (C2 : List ExpressionNode) (a : SearchState) {s : Solution}
    (hs : s ∈ a.solutions) :
    s ∈ (List.foldl (searchStep f terms target cap)
      (List.foldl (innerStep f remaining target cap) a C2) L2).solutions :=
  (stateLe_trans (innerFold_stateLe f target cap remaining C2 a)
    (pairFold_stateLe f terms target cap L2 _)).1.subset hs

theorem fold_chain_ne_nil (f : Nat) (terms : List ExpressionNode) (target : Fraction)
    (cap : Option Int) (remaining : List ExpressionNode) (L2 : List (Nat × Nat))
    (C2 : List ExpressionNode) (a : SearchState) (ha : a.solutions ≠ []) :
    (List.foldl (searchStep f terms target cap)
      (List.foldl (innerStep f remaining target cap) a C2) L2).solutions ≠ [] := by
  intro habs
  have hpre := (stateLe_trans (innerFold_stateLe f target cap remaining C2 a)
    (pairFold_stateLe f terms target cap L2 _)).1
  rw [habs] at hpre
  exact ha (List.prefix_nil.mp hpre)

/--
Completeness with no cap: if a certificate narrows the pool to a node whose
fraction equals the target, the uncapped search result contains a solution
carrying exactly that node rendered text (either this call emits it, or the
text was already seen, in which case `SeenInv` produces the earlier solution).
-/
theorem searchSolutions_complete_mem {terms : List ExpressionNode} {e : ExpressionNode}
    (hreach : PoolReaches terms e) :
    ∀ (fuel : Nat) (target : Fraction) (st : SearchState),
      fractionsEqual e.fraction target = true →
      terms.length ≤ fuel → SeenInv st →
      ∃ s ∈ (searchSolutions fuel terms target none st).solutions,
        s.expression = reprNode e := by
  induction hreach with
  | single e0 =>
    intro fuel target st heq hfuel hseen
    obtain ⟨f, rfl⟩ : ∃ f, fuel = f + 1 := ⟨fuel - 1, by simp at hfuel; omega⟩
    rw [searchSolutions_succ_single, if_neg (by simp [capReached]), if_pos heq]
    by_cases hc : st.seenExpressions.contains (reprNode e0) = true
    · rw [if_pos hc]
      exact hseen _ (contains_iff_mem.mp hc)
    · rw [if_neg hc]
      exact ⟨⟨reprNode e0, fractionToNumber e0.fraction⟩, by simp, rfl⟩
  | @step terms e next i j hij hnext hrec ih =>
    intro fuel target st heq hfuel hseen
    cases terms with
    | nil =>
      obtain ⟨h1, h2⟩ := mem_pairIndices.mp hij
      simp at h2
    | cons t1 rest =>
      cases rest with
      | nil =>
        obtain ⟨h1, h2⟩ := mem_pairIndices.mp hij
        simp at h2
        omega
      | cons t2 ts =>
        obtain ⟨f, rfl⟩ : ∃ f, fuel = f + 1 := ⟨fuel - 1, by simp at hfuel; omega⟩
        rw [searchSolutions_succ_cons, if_neg (by simp [capReached])]
        obtain ⟨L1, L2, hL⟩ := List.append_of_mem hij
        rw [hL, List.foldl_append, List.foldl_cons, searchStep_eq]
        obtain ⟨C1, C2, hC⟩ := List.append_of_mem hnext
        rw [hC, List.foldl_append, List.foldl_cons, innerStep_eq,
          if_neg (by simp [capReached])]
        have hseen1 : SeenInv (List.foldl (searchStep f (t1 :: t2 :: ts) target none) st L1) :=
          pairFold_seenInv f _ target none L1 st hseen
        have hseen2 := innerFold_seenInv f target none
          (((t1 :: t2 :: ts).eraseIdx j).eraseIdx i) C1 _ hseen1
        have hlenr : ((((t1 :: t2 :: ts).eraseIdx j).eraseIdx i) ++ [next]).length ≤ f := by
          rw [List.length_append, remaining_length hij]
          simp only [List.length_cons] at hfuel ⊢
          simp
          omega
        obtain ⟨s, hs3, hsexp⟩ := ih f target _ heq hlenr hseen2
        exact ⟨s, fold_chain_mem f _ target none _ L2 C2 _ hs3, hsexp⟩

/--
Completeness under a positive cap: a matching certificate forces the result
solution list to be nonempty — either the search reaches the certificate node
and emits (or has already emitted) a solution, or it stopped early because the
cap was reached, which under a positive cap already requires a nonempty
solution list.
-/
theorem searchSolutions_complete_ne_nil {terms : List ExpressionNode} {e : ExpressionNode}
    (hreach : PoolReaches terms e) :
    ∀ (fuel : Nat) (target : Fraction) (cap : Option Int) (st : SearchState),
      fractionsEqual e.fraction target = true →
      terms.length ≤ fuel →
      capNonpositive cap = false →
      (st.solutions = [] → st.seenExpressions = []) →
      (searchSolutions fuel terms target cap st).solutions ≠ [] := by
  induction hreach with
  | single e0 =>
    intro fuel target cap st heq hfuel hcap hq
    obtain ⟨f, rfl⟩ : ∃ f, fuel = f + 1 := ⟨fuel - 1, by simp at hfuel; omega⟩
    rw [searchSolutions_succ_single]
    by_cases hc : capReached cap st.solutions.length = true
    · rw [if_pos hc]
      have hpos := capReached_pos hc hcap
      intro habs
      rw [habs] at hpos
      simp at hpos
    · rw [if_neg hc, if_pos heq]
      by_cases hs : st.seenExpressions.contains (reprNode e0) = true
      · rw [if_pos hs]
        intro habs
        rw [hq habs] at hs
        simp [List.contains] at hs
      · rw [if_neg hs]
        simp
  | @step terms e next i j hij hnext hrec ih =>
    intro fuel target cap st heq hfuel hcap hq
    cases terms with
    | nil =>
      obtain ⟨h1, h2⟩ := mem_pairIndices.mp hij
      simp at h2
    | cons t1 rest =>
      cases rest with
      | nil =>
        obtain ⟨h1, h2⟩ := mem_pairIndices.mp hij
        simp at h2
        omega
      | cons t2 ts =>
        obtain ⟨f, rfl⟩ : ∃ f, fuel = f + 1 := ⟨fuel - 1, by simp at hfuel; omega⟩
        rw [searchSolutions_succ_cons]
        by_cases hc : capReached cap st.solutions.length = true
        · rw [if_pos hc]
          have hpos := capReached_pos hc hcap
          intro habs
          rw [habs] at hpos
          simp at hpos
        · rw [if_neg hc]
          obtain ⟨L1, L2, hL⟩ := List.append_of_mem hij
          rw [hL, List.foldl_append, List.foldl_cons, searchStep_eq]
          obtain ⟨C1, C2, hC⟩ := List.append_of_mem hnext
          rw [hC, List.foldl_append, List.foldl_cons, innerStep_eq]
          have hq1 := stateLe_emptyInv
            (pairFold_stateLe f (t1 :: t2 :: ts) target cap L1 st) hq
          have hq2 := stateLe_emptyInv (innerFold_stateLe f target cap
            (((t1 :: t2 :: ts).eraseIdx j).eraseIdx i) C1 _) hq1
          have hlenr : ((((t1 :: t2 :: ts).eraseIdx j).eraseIdx i) ++ [next]).length ≤ f := by
            rw [List.length_append, remaining_length hij]
            simp only [List.length_cons] at hfuel ⊢
            simp
            omega
          split
          · rename_i hc2
            exact fold_chain_ne_nil f _ target cap _ L2 C2 _
              (List.length_pos.mp (capReached_pos hc2 hcap))
          · rename_i hc2
            exact fold_chain_ne_nil f _ target cap _ L2 C2 _
              (ih f target cap _ heq hlenr hcap hq2)

/-! ### `findSolutions`: validation branches -/

theorem findSolutions_empty (options : SolverOptions) :
    findSolutions [] options =
      .error "The numbers array must contain at least one entry." := rfl

theorem findSolutions_nonFinite (numbers : List Int) (maxS : Option Int)
    (hne : numbers ≠ []) :
    findSolutions numbers ⟨.nonFinite, maxS⟩ =
      .error "Target must be a finite number." := by
  have hlen : ¬(numbers.length = 0) := by simpa using hne
  simp only [findSolutions, if_neg hlen]

theorem findSolutions_capbad (numbers : List Int) (tv : Int) {maxS : Option Int}
    (hne : numbers ≠ []) (hcap : capNonpositive maxS = true) :
    findSolutions numbers ⟨.finite tv, maxS⟩ =
      .error "maxSolutions must be greater than zero." := by
  have hlen : ¬(numbers.length = 0) := by simpa using hne
  simp only [findSolutions, if_neg hlen, hcap, if_true]

theorem findSolutions_eq_ok (numbers : List Int) (tv : Int) (maxS : Option Int)
    (hne : numbers ≠ []) (hcap : capNonpositive maxS = false) :
    findSolutions numbers ⟨.finite tv, maxS⟩ =
      .ok ((searchSolutions (makeInitialExpressions numbers).length
        (makeInitialExpressions numbers) (reduceFraction tv 1) maxS
        ⟨[], []⟩).solutions) := by
  have hlen : ¬(numbers.length = 0) := by simpa using hne
  simp only [findSolutions, if_neg hlen, hcap]
  rfl

/-! ### Concrete solution certificates for `[5, 8, 13, 4, 2, 1]`, target `163` -/

/-- `5 + 8`. -/
def certA1 : ExpressionNode := .addGroup ⟨13, 1⟩ [.num 5, .num 8] []

/-- `13 × (5 + 8)`. -/
def certM1 : ExpressionNode := .mulGroup ⟨169, 1⟩ [.num 13, certA1] []

/-- `4 + 2`. -/
def certA2 : ExpressionNode := .addGroup ⟨6, 1⟩ [.num 4, .num 2] []

/-- `1 × 13 × (5 + 8)`. -/
def certM2 : ExpressionNode := .mulGroup ⟨169, 1⟩ [.num 1, .num 13, certA1] []

/-- `1 × 13 × (5 + 8) − 4 − 2 = 163`, rendered `1*13*(5+8)-2-4`. -/
def certE1 : ExpressionNode := .addGroup ⟨163, 1⟩ [certM2] [.num 4, .num 2]

/-- `13 × (5 + 8) − 4 − 2`. -/
def certE2 : ExpressionNode := .addGroup ⟨163, 1⟩ [certM1] [.num 4, .num 2]

/-- `1 × (13 × (5 + 8) − 4 − 2) = 163`, rendered `1*(13*(5+8)-2-4)`. -/
def certM3 : ExpressionNode := .mulGroup ⟨163, 1⟩ [.num 1, certE2] []

theorem cert1_reaches :
    PoolReaches (makeInitialExpressions [5, 8, 13, 4, 2, 1]) certE1 :=
  @PoolReaches.step (makeInitialExpressions [5, 8, 13, 4, 2, 1]) certE1 certA1 0 1
    (by decide) (by decide)
    (@PoolReaches.step [.num 13, .num 4, .num 2, .num 1, certA1] certE1 certM1 0 4
      (by decide) (by decide)
      (@PoolReaches.step [.num 4, .num 2, .num 1, certM1] certE1 certA2 0 1
        (by decide) (by decide)
        (@PoolReaches.step [.num 1, certM1, certA2] certE1 certM2 0 1
          (by decide) (by decide)
          (@PoolReaches.step [certA2, certM2] certE1 certE1 0 1
            (by decide) (by decide)
            (PoolReaches.single certE1)))))

theorem cert2_reaches :
    PoolReaches (makeInitialExpressions [5, 8, 13, 4, 2, 1]) certM3 :=
  @PoolReaches.step (makeInitialExpressions [5, 8, 13, 4, 2, 1]) certM3 certA1 0 1
    (by decide) (by decide)
    (@PoolReaches.step [.num 13, .num 4, .num 2, .num 1, certA1] certM3 certM1 0 4
      (by decide) (by decide)
      (@PoolReaches.step [.num 4, .num 2, .num 1, certM1] certM3 certA2 0 1
        (by decide) (by decide)
        (@PoolReaches.step [.num 1, certM1, certA2] certM3 certE2 1 2
          (by decide) (by decide)
          (@PoolReaches.step [.num 1, certE2] certM3 certM3 0 1
            (by decide) (by decide)
            (PoolReaches.single certM3)))))

/-! ### Claims C1–C4 -/

/--
C1: every solution a validated `findSolutions` call emits comes from a node
reachable by the search's join operations whose exact fraction structurally
equals the target's fraction (no tolerance); the solution's `expression` is
that node's rendered text and its `value` is the node's exact value.
-/
theorem C1_solutions_exact (numbers : List Int) (options : SolverOptions)
    (sols : List Solution) (tv : Int) (htv : options.target = .finite tv)
    (hok : findSolutions numbers options = .ok sols) :
    ∀ s ∈ sols, ∃ e : ExpressionNode, Reachable e ∧
      e.fraction = reduceFraction tv 1 ∧
      s.expression = reprNode e ∧ s.value = fractionToNumber e.fraction := by
  obtain ⟨tgt, maxS⟩ := options
  simp only at htv
  subst htv
  by_cases hne : numbers = []
  · rw [hne, findSolutions_empty] at hok
    exact absurd hok (by simp)
  · by_cases hcap : capNonpositive maxS = true
    · rw [findSolutions_capbad numbers tv hne hcap] at hok
      exact absurd hok (by simp)
    · have hcap' : capNonpositive maxS = false := by simpa using hcap
      rw [findSolutions_eq_ok numbers tv maxS hne hcap'] at hok
      simp only [Except.ok.injEq] at hok
      subst hok
      have hinv := searchSolutions_inv (makeInitialExpressions numbers).length
        (makeInitialExpressions numbers) (reduceFraction tv 1) maxS ⟨[], []⟩
        (fun t ht => by
          obtain ⟨v, _, rfl⟩ := List.mem_map.mp ht
          exact Reachable.leaf v)
        ⟨by simp, List.Pairwise.nil, by simp⟩
      exact hinv.1

theorem C1_solutions_exact_witness :
    ∃ e : ExpressionNode, Reachable e ∧ e.fraction = reduceFraction 1 1 ∧
      (⟨"1", 1⟩ : Solution).expression = reprNode e ∧
      (⟨"1", 1⟩ : Solution).value = fractionToNumber e.fraction :=
  C1_solutions_exact [1] ⟨.finite 1, none⟩ [⟨"1", 1⟩] 1 rfl (by decide)
    ⟨"1", 1⟩ (by decide)

/--
C2: no two solutions returned by one `findSolutions` call carry the same
expression text — the seen-set lookup before each emission silently discards
duplicates.
-/
theorem C2_no_duplicates (numbers : List Int) (options : SolverOptions)
    (sols : List Solution) (hok : findSolutions numbers options = .ok sols) :
    sols.Pairwise (fun a b => a.expression ≠ b.expression) := by
  obtain ⟨tgt, maxS⟩ := options
  by_cases hne : numbers = []
  · rw [hne, findSolutions_empty] at hok
    exact absurd hok (by simp)
  · cases tgt with
    | nonFinite =>
      rw [findSolutions_nonFinite numbers maxS hne] at hok
      exact absurd hok (by simp)
    | finite tv =>
      by_cases hcap : capNonpositive maxS = true
      · rw [findSolutions_capbad numbers tv hne hcap] at hok
        exact absurd hok (by simp)
      · have hcap' : capNonpositive maxS = false := by simpa using hcap
        rw [findSolutions_eq_ok numbers tv maxS hne hcap'] at hok
        simp only [Except.ok.injEq] at hok
        subst hok
        have hinv := searchSolutions_inv (makeInitialExpressions numbers).length
          (makeInitialExpressions numbers) (reduceFraction tv 1) maxS ⟨[], []⟩
          (fun t ht => by
            obtain ⟨v, _, rfl⟩ := List.mem_map.mp ht
            exact Reachable.leaf v)
          ⟨by simp, List.Pairwise.nil, by simp⟩
        exact hinv.2.1

set_option maxRecDepth 4096 in
theorem C2_no_duplicates_witness :
    ([⟨"1+2+2", 5⟩, ⟨"1+2*2", 5⟩] : List Solution).Pairwise
      (fun a b => a.expression ≠ b.expression) :=
  C2_no_duplicates [2, 2, 1] ⟨.finite 5, none⟩ _ (by decide)

/--
C3: with a positive cap `m` the returned list has at most `m` solutions; the
shared count is checked on entry of every recursive call and before every
candidate, so a reached cap makes the whole remaining search a no-op; and for
`numbers = [5, 8, 13, 4, 2, 1]`, `target = 163`, `maxSolutions = 1` exactly
one solution is returned even though the uncapped call returns at least two.
-/
theorem C3_cap_enforcement :
    (∀ (numbers : List Int) (options : SolverOptions) (m : Int) (sols : List Solution),
        options.maxSolutions = some m →
        findSolutions numbers options = .ok sols →
        (sols.length : Int) ≤ m) ∧
    (∀ (fuel : Nat) (terms : List ExpressionNode) (target : Fraction)
        (cap : Option Int) (st : SearchState),
        capReached cap st.solutions.length = true →
        searchSolutions fuel terms target cap st = st) ∧
    (∃ sols : List Solution,
        findSolutions [5, 8, 13, 4, 2, 1] ⟨.finite 163, some 1⟩ = .ok sols ∧
        sols.length = 1) ∧
    (∃ sols : List Solution,
        findSolutions [5, 8, 13, 4, 2, 1] ⟨.finite 163, none⟩ = .ok sols ∧
        2 ≤ sols.length) := by
  refine ⟨?_, ?_, ?_, ?_⟩
  · intro numbers options m sols hmax hok
    obtain ⟨tgt, maxS⟩ := options
    simp only at hmax
    subst hmax
    by_cases hne : numbers = []
    · rw [hne, findSolutions_empty] at hok
      exact absurd hok (by simp)
    · cases tgt with
      | nonFinite =>
        rw [findSolutions_nonFinite numbers _ hne] at hok
        exact absurd hok (by simp)
      | finite tv =>
        by_cases hcap : capNonpositive (some m) = true
        · rw [findSolutions_capbad numbers tv hne hcap] at hok
          exact absurd hok (by simp)
        · have hcap' : capNonpositive (some m) = false := by simpa using hcap
          rw [findSolutions_eq_ok numbers tv (some m) hne hcap'] at hok
          simp only [Except.ok.injEq] at hok
          subst hok
          have hm : ¬(m ≤ 0) := by simpa [capNonpositive] using hcap
          exact searchSolutions_cap_le (makeInitialExpressions numbers).length
            (makeInitialExpressions numbers) (reduceFraction tv 1) m ⟨[], []⟩
            (by simp; omega)
  · intro fuel terms target cap st h
    exact searchSolutions_capped h
  · have heq := findSolutions_eq_ok [5, 8, 13, 4, 2, 1] 163 (some 1) (by simp) rfl
    refine ⟨_, heq, ?_⟩
    have hle := searchSolutions_cap_le
      (makeInitialExpressions [5, 8, 13, 4, 2, 1]).length
      (makeInitialExpressions [5, 8, 13, 4, 2, 1]) (reduceFraction 163 1) 1 ⟨[], []⟩
      (by simp)
    have hnil := searchSolutions_complete_ne_nil cert1_reaches
      (makeInitialExpressions [5, 8, 13, 4, 2, 1]).length (reduceFraction 163 1)
      (some 1) ⟨[], []⟩ (by decide) (le_refl _) rfl (fun _ => rfl)
    have hpos := List.length_pos.mpr hnil
    omega
  · have heq := findSolutions_eq_ok [5, 8, 13, 4, 2, 1] 163 none (by simp) rfl
    refine ⟨_, heq, ?_⟩
    obtain ⟨s1, hs1, he1⟩ := searchSolutions_complete_mem cert1_reaches
      (makeInitialExpressions [5, 8, 13, 4, 2, 1]).length (reduceFraction 163 1)
      ⟨[], []⟩ (by decide) (le_refl _) (by intro x hx; simp at hx)
    obtain ⟨s2, hs2, he2⟩ := searchSolutions_complete_mem cert2_reaches
      (makeInitialExpressions [5, 8, 13, 4, 2, 1]).length (reduceFraction 163 1)
      ⟨[], []⟩ (by decide) (le_refl _) (by intro x hx; simp at hx)
    refine two_le_length_of_mem_ne hs1 hs2 ?_
    intro habs
    have hrepr : reprNode certE1 = reprNode certM3 := by
      rw [← he1, habs, he2]
    exact (by decide : reprNode certE1 ≠ reprNode certM3) hrepr

theorem C3_cap_enforcement_witness :
    ((([(⟨"1+2", 3⟩ : Solution)]).length : Int) ≤ 1) ∧
    searchSolutions 3 [.num 7] ⟨7, 1⟩ (some 1) ⟨[⟨"7", 7⟩], ["7"]⟩ =
      ⟨[⟨"7", 7⟩], ["7"]⟩ :=
  ⟨C3_cap_enforcement.1 [2, 1] ⟨.finite 3, some 1⟩ 1 [⟨"1+2", 3⟩] rfl (by decide),
   C3_cap_enforcement.2.1 3 [.num 7] ⟨7, 1⟩ (some 1) ⟨[⟨"7", 7⟩], ["7"]⟩ (by decide)⟩

/--
C4: `findSolutions` returns an error exactly when the numbers list is empty,
the target is non-finite, or the effective cap is `≤ 0` (the absent /
`Infinity` default never trips it); in the error case no partial results
exist (`Except.error` carries none), and otherwise the call returns a
(possibly empty) solution list.
-/
theorem C4_validation (numbers : List Int) (options : SolverOptions) :
    ((∃ msg, findSolutions numbers options = .error msg) ↔
      (numbers = [] ∨ options.target = .nonFinite ∨
        ∃ m, options.maxSolutions = some m ∧ m ≤ 0)) ∧
    (¬(numbers = [] ∨ options.target = .nonFinite ∨
        ∃ m, options.maxSolutions = some m ∧ m ≤ 0) →
      ∃ sols, findSolutions numbers options = .ok sols) := by
  obtain ⟨tgt, maxS⟩ := options
  by_cases hne : numbers = []
  · subst hne
    constructor
    · exact iff_of_true ⟨_, findSolutions_empty _⟩ (Or.inl rfl)
    · intro h
      exact absurd (Or.inl rfl) h
  · cases tgt with
    | nonFinite =>
      constructor
      · exact iff_of_true ⟨_, findSolutions_nonFinite numbers maxS hne⟩
          (Or.inr (Or.inl rfl))
      · intro h
        exact absurd (Or.inr (Or.inl rfl)) h
    | finite tv =>
      by_cases hcap : capNonpositive maxS = true
      · have hex : ∃ m, maxS = some m ∧ m ≤ 0 := by
          cases maxS with
          | none => simp [capNonpositive] at hcap
          | some m => exact ⟨m, rfl, by simpa [capNonpositive] using hcap⟩
        constructor
        · exact iff_of_true ⟨_, findSolutions_capbad numbers tv hne hcap⟩
            (Or.inr (Or.inr hex))
        · intro h
          exact absurd (Or.inr (Or.inr hex)) h
      · have hcap' : capNonpositive maxS = false := by simpa using hcap
        have hok := findSolutions_eq_ok numbers tv maxS hne hcap'
        constructor
        · refine iff_of_false ?_ ?_
          · rintro ⟨msg, hmsg⟩
            rw [hok] at hmsg
            exact absurd hmsg (by simp)
          · rintro (h | h | ⟨m, hm, hm0⟩)
            · exact hne h
            · simp at h
            · simp only at hm
              rw [hm] at hcap'
              simp [capNonpositive] at hcap'
              omega
        · intro _
          exact ⟨_, hok⟩

theorem C4_validation_witness :
    ¬(([1] : List Int) = [] ∨
        (⟨.finite 1, none⟩ : SolverOptions).target = .nonFinite ∨
        ∃ m, (⟨.finite 1, none⟩ : SolverOptions).maxSolutions = some m ∧ m ≤ 0) ∧
    ∃ sols, findSolutions [1] ⟨.finite 1, none⟩ = .ok sols := by
  have hn : ¬(([1] : List Int) = [] ∨
      (⟨.finite 1, none⟩ : SolverOptions).target = .nonFinite ∨
      ∃ m, (⟨.finite 1, none⟩ : SolverOptions).maxSolutions = some m ∧ m ≤ 0) := by
    rintro (h | h | ⟨m, hm, _⟩)
    · exact List.noConfusion h
    · exact JSNumber.noConfusion h
    · exact Option.noConfusion hm
  exact ⟨hn, (C4_validation [1] ⟨.finite 1, none⟩).2 hn⟩

end Solver
